import Mathlib

/-!
# streamz: topology builder, partition-group merge and forwarding context

A shallow embedding of `topology_builder.go`, `context.go` and `internal/sink.go`.

* The partition-group code is embedded twice. On group values
  (`Streamz.mergeIteration`, `Streamz.mergePartitionGroups`) a group is three
  `List String` and the update of the group behind `pgs[a]` is `List.set`. In
  memory (`Mem.mergeIteration`, `Mem.mergePartitionGroups`) a group is a struct of
  three slice headers behind a pointer, `append` and `slices.Compact` write into
  backing arrays, and groups may share memory; `Mem.mergedValues_refines` shows
  that the two agree on groups that share none. Addresses are natural numbers; a
  nil pointer is not modelled. Only the returned slice of pointers is modelled,
  not what is left in the argument.
* Go maps are total functions into `Option`; the iteration order of a `range`
  over a map is an explicit list of the map's entries.
* The `for !finished` loop of `mergePartitionGroups` is run with an explicit
  budget of merges; `none` means the budget was exhausted.
* Calls of function values and of downstream nodes are transitions of a world
  `W`; the calls made are listed next to the result.
-/

namespace Streamz

/-! ## Partition groups (`topology_builder.go`, lines 32-103) -/

/-- PartitionGroup is a sub-graph of nodes that must be co-partitioned. -/
structure PartitionGroup where
  sourceTopics : List String
  processorNames : List String
  storeNames : List String
deriving DecidableEq, Repr

/-- ContainsAny: the nested loop over `s` and `v` that returns true at the first
equal pair of elements. -/
def ContainsAny {E : Type} [DecidableEq E] (s v : List E) : Bool :=
  s.any (fun item => v.any (fun check => decide (item = check)))

/-- The loop of `slices.Compact` after the first element: `prev` is `s[k-1]`,
and `s[k]` is kept exactly when it differs from `s[k-1]`. -/
def compactFrom {E : Type} [DecidableEq E] (prev : E) : List E → List E
  | [] => []
  | x :: rest => if x = prev then compactFrom x rest else x :: compactFrom x rest

/-- The function `slices.Compact`: every run of consecutive equal elements is
replaced by a single copy. -/
def Compact {E : Type} [DecidableEq E] : List E → List E
  | [] => []
  | x :: rest => x :: compactFrom x rest

/-- The condition of the `if` at line 63 of `mergeIteration`, for the outer
loop variable `pg` and the inner loop variable `otherPg`. -/
def overlaps (pg otherPg : PartitionGroup) : Bool :=
  ContainsAny otherPg.sourceTopics pg.sourceTopics
    || ContainsAny otherPg.processorNames pg.processorNames
    || ContainsAny otherPg.storeNames pg.storeNames

/-- The inner loop `for d, otherPg := range pgs` of `mergeIteration` for a fixed
outer index `i` and group `pg`; `d` is the index of the head of the remaining
list. Returns the index at which `break outer` is taken. -/
def innerScan (i : Nat) (pg : PartitionGroup) : Nat → List PartitionGroup → Option Nat
  | _, [] => none
  | d, otherPg :: rest =>
    if i = d then innerScan i pg (d + 1) rest
    else if overlaps pg otherPg then some d
    else innerScan i pg (d + 1) rest

/-- The outer loop `for i, pg := range pgs` of `mergeIteration`; `i` is the index
of the head of the remaining list and `pgs` the whole slice. Returns the pair
`(a, b)` assigned before `break outer`, or `none` when `dirty` stays false. -/
def outerScan (pgs : List PartitionGroup) : Nat → List PartitionGroup → Option (Nat × Nat)
  | _, [] => none
  | i, pg :: rest =>
    match innerScan i pg 0 pgs with
    | some d => some (i, d)
    | none => outerScan pgs (i + 1) rest

/-- The three assignments at lines 86-88: the members of `pgB` are appended to
those of `pgA` and the result is compacted. -/
def mergeInto (pgA pgB : PartitionGroup) : PartitionGroup :=
  { sourceTopics := Compact (pgA.sourceTopics ++ pgB.sourceTopics)
    processorNames := Compact (pgA.processorNames ++ pgB.processorNames)
    storeNames := Compact (pgA.storeNames ++ pgB.storeNames) }

/-- The function `mergeIteration`. The second component is `done`. The last
branch stands for an index out of range at `pgs[a]` or `pgs[b]`; it reports
`done = false` without progress, so that the loop built on it yields no result
there (by `mergeIteration_cases` it is never taken). -/
def mergeIteration (pgs : List PartitionGroup) : List PartitionGroup × Bool :=
  match outerScan pgs 0 pgs with
  | none => (pgs, true)
  | some (i, d) =>
    let a := if i < d then d else i
    let b := if i < d then i else d
    match pgs[a]?, pgs[b]? with
    | some pgA, some pgB => ((pgs.set a (mergeInto pgA pgB)).eraseIdx b, false)
    | _, _ => (pgs, false)

/-- The loop `for !finished` of `mergePartitionGroups`, allowed at most `fuel`
iterations that report `done = false`. -/
def mergeLoop : Nat → List PartitionGroup → Option (List PartitionGroup)
  | fuel, pgs =>
    match mergeIteration pgs with
    | (out, true) => some out
    | (out, false) =>
      match fuel with
      | 0 => none
      | f + 1 => mergeLoop f out

/-- The function `mergePartitionGroups`, with a budget of `len(pgs)` merges. -/
def mergePartitionGroups (pgs : List PartitionGroup) : Option (List PartitionGroup) :=
  mergeLoop pgs.length pgs

/-! ## Partition groups in memory

The same code with the memory it works on: a `[]*PartitionGroup` is a list of
addresses of `PartitionGroup` structs, each holding three slice headers into
backing arrays. `append` writes into the backing array when the capacity
suffices and allocates otherwise, `slices.Compact` works in place, and the
assignments of lines 86-88 update the struct behind the pointer. Two things the
language leaves open are parameters (`Runtime`). -/

/-- A Go slice header: the backing array, the offset of the first element in
it, the length and the capacity. The nil slice has length and capacity 0. -/
structure Slice where
  arr : Nat
  off : Nat
  len : Nat
  cap : Nat
deriving DecidableEq, Repr

/-- The three fields of the struct `PartitionGroup`. -/
inductive Field where
  | sourceTopics
  | processorNames
  | storeNames
deriving DecidableEq, Repr, Fintype

/-- The struct `PartitionGroup` in memory: three slice headers. -/
structure GroupStruct where
  sourceTopics : Slice
  processorNames : Slice
  storeNames : Slice
deriving DecidableEq, Repr

/-- The slice header in field `f`. -/
def GroupStruct.get (g : GroupStruct) : Field → Slice
  | .sourceTopics => g.sourceTopics
  | .processorNames => g.processorNames
  | .storeNames => g.storeNames

/-- The struct after the assignment of `s` to field `f`. -/
def GroupStruct.set (g : GroupStruct) (f : Field) (s : Slice) : GroupStruct :=
  match f with
  | .sourceTopics => { g with sourceTopics := s }
  | .processorNames => { g with processorNames := s }
  | .storeNames => { g with storeNames := s }

/-- The member list in field `f` of a group value. -/
def PartitionGroup.get (g : PartitionGroup) : Field → List String
  | .sourceTopics => g.sourceTopics
  | .processorNames => g.processorNames
  | .storeNames => g.storeNames

/-- What Go leaves open: `grow oldCap needed` is the capacity that `append`
asks for when it allocates (it gets at least `needed`), and `compactClears` says
whether `slices.Compact` zeroes the elements between the new and the old length
(later versions of the package do). -/
structure Runtime where
  grow : Nat → Nat → Nat
  compactClears : Bool

/-- The memory: `arrays a i` is element `i` of backing array `a`, arrays with an
identifier below `next` are allocated, and `groups p` is the struct at address
`p`. -/
structure Memory where
  arrays : Nat → Nat → String
  next : Nat
  groups : Nat → GroupStruct

/-- The elements of a slice. -/
def Memory.read (m : Memory) (s : Slice) : List String :=
  (List.range s.len).map (fun i => m.arrays s.arr (s.off + i))

/-- The memory after the elements `xs` are stored in array `arr` from position
`pos` on. -/
def Memory.write (m : Memory) (arr pos : Nat) (xs : List String) : Memory :=
  { m with
    arrays := fun a i =>
      if a = arr ∧ pos ≤ i ∧ i < pos + xs.length then xs.getD (i - pos) "" else m.arrays a i }

/-- The group value behind the pointer `p`. -/
def Memory.value (m : Memory) (p : Nat) : PartitionGroup :=
  { sourceTopics := m.read (m.groups p).sourceTopics
    processorNames := m.read (m.groups p).processorNames
    storeNames := m.read (m.groups p).storeNames }

/-- The group values behind a list of pointers. -/
def Memory.values (m : Memory) (pgs : List Nat) : List PartitionGroup :=
  pgs.map m.value

namespace Mem

/-- The builtin `append(s, xs...)`, where `xs` are the elements read from the
second argument: within the capacity the elements are stored behind the slice in
its backing array; otherwise a new array is allocated and filled with the
elements of `s` followed by `xs`. -/
def append (rt : Runtime) (m : Memory) (s : Slice) (xs : List String) : Memory × Slice :=
  if s.len + xs.length ≤ s.cap then
    (m.write s.arr (s.off + s.len) xs, { s with len := s.len + xs.length })
  else
    ({ m with
        arrays := fun a i => if a = m.next then (m.read s ++ xs).getD i "" else m.arrays a i
        next := m.next + 1 },
      { arr := m.next, off := 0, len := s.len + xs.length,
        cap := max (s.len + xs.length) (rt.grow s.cap (s.len + xs.length)) })

/-- The function `slices.Compact` on a slice in memory: the compacted elements
are stored from the start of the slice, the elements behind them keep their
values unless the version clears them, and the slice is cut to the new
length. -/
def Compact (rt : Runtime) (m : Memory) (s : Slice) : Memory × Slice :=
  let c := Streamz.Compact (m.read s)
  let m1 := m.write s.arr s.off c
  let m2 :=
    if rt.compactClears then
      m1.write s.arr (s.off + c.length) (List.replicate (s.len - c.length) "")
    else m1
  (m2, { s with len := c.length })

/-- One of the lines 86-88, for the field `f`:
`pgA.f = slices.Compact(append(pgA.f, pgB.f...))`. -/
def mergeField (rt : Runtime) (m : Memory) (pgA pgB : Nat) (f : Field) : Memory :=
  let r1 := append rt m ((m.groups pgA).get f) (m.read ((m.groups pgB).get f))
  let r2 := Compact rt r1.1 r1.2
  { r2.1 with groups := fun p => if p = pgA then (r2.1.groups p).set f r2.2 else r2.1.groups p }

/-- The function `mergeIteration` on a list of pointers: the scan reads the
groups behind them, the merge updates the group behind `pgs[a]` field by field,
and `slices.Delete` drops the pointer at index `b`. The last branch is as in
`Streamz.mergeIteration`. -/
def mergeIteration (rt : Runtime) (m : Memory) (pgs : List Nat) : Memory × List Nat × Bool :=
  match outerScan (m.values pgs) 0 (m.values pgs) with
  | none => (m, pgs, true)
  | some (i, d) =>
    let a := if i < d then d else i
    let b := if i < d then i else d
    match pgs[a]?, pgs[b]? with
    | some pgA, some pgB =>
      let m1 := mergeField rt m pgA pgB Field.sourceTopics
      let m2 := mergeField rt m1 pgA pgB Field.processorNames
      let m3 := mergeField rt m2 pgA pgB Field.storeNames
      (m3, pgs.eraseIdx b, false)
    | _, _ => (m, pgs, false)

/-- The loop `for !finished` of `mergePartitionGroups`, allowed at most `fuel`
iterations that report `done = false`. -/
def mergeLoop (rt : Runtime) : Nat → Memory → List Nat → Option (Memory × List Nat)
  | fuel, m, pgs =>
    match mergeIteration rt m pgs with
    | (m1, out, true) => some (m1, out)
    | (m1, out, false) =>
      match fuel with
      | 0 => none
      | f + 1 => mergeLoop rt f m1 out

/-- The function `mergePartitionGroups`, with a budget of `len(pgs)` merges. -/
def mergePartitionGroups (rt : Runtime) (m : Memory) (pgs : List Nat) :
    Option (Memory × List Nat) :=
  mergeLoop rt pgs.length m pgs

/-- The group values returned by `mergePartitionGroups`, read from the memory
after the call. -/
def mergedValues (rt : Runtime) (m : Memory) (pgs : List Nat) : Option (List PartitionGroup) :=
  (mergePartitionGroups rt m pgs).map (fun r => r.1.values r.2)

end Mem

/-! ## Topology builder (`topology_builder.go`, lines 15-26 and 105-294)

Function values captured by a descriptor (the processor builder `p`, the
serializers and deserializers, a store builder) are values of one type `Fn`. -/

/-- The error values of the package: the three package-level variables,
`errors.New(msg)` for an error created at the point of return, and
`fmt.Errorf(text + "%w", err)` for an error that wraps `err`. -/
inductive Error where
  | ErrNodeAlreadyExists
  | ErrNodeNotFound
  | ErrInternal
  | New (msg : String)
  | Errorf (text : String) (err : Error)
deriving DecidableEq, Repr

/-- The method `Error()` of an error value, its message; a wrapping error prints the
text of its format followed by the message of the wrapped error. -/
def Error.text : Error → String
  | .ErrNodeAlreadyExists => "node exists already"
  | .ErrNodeNotFound => "node not found"
  | .ErrInternal => "internal"
  | .New msg => msg
  | .Errorf text err => text ++ err.text

/-- The function `errors.Unwrap`: the error wrapped with `%w`, if any. -/
def Error.Unwrap : Error → Option Error
  | .Errorf _ err => some err
  | _ => none

/-- TopologyStore: `Name` and the store builder. -/
structure TopologyStore (Fn : Type) where
  Name : String
  Build : Fn

/-- TopologySink: `Name`; `Builder` closes over the topic and the two
serializers. -/
structure TopologySink (Fn : Type) where
  Name : String
  Builder : String × Fn × Fn

/-- TopologyProcessor: `Build` and `AddChildFunc` close over the processor
builder `p` only, which is what `Build` holds. -/
structure TopologyProcessor (Fn : Type) where
  Name : String
  Build : Fn
  ChildNodeNames : List String
  StoreNames : List String

/-- TopologySource: `Build` closes over the two deserializers. -/
structure TopologySource (Fn : Type) where
  Name : String
  Build : Fn × Fn
  ChildNodeNames : List String

/-- TopologyBuilder: the five maps of the struct. -/
structure TopologyBuilder (Fn : Type) where
  processors : String → Option (TopologyProcessor Fn)
  stores : String → Option (TopologyStore Fn)
  sources : String → Option (TopologySource Fn)
  sinks : String → Option (TopologySink Fn)
  childNodes : String → Option (List String)

/-- NewTopologyBuilder: five empty maps. -/
def NewTopologyBuilder (Fn : Type) : TopologyBuilder Fn :=
  { processors := fun _ => none
    stores := fun _ => none
    sources := fun _ => none
    sinks := fun _ => none
    childNodes := fun _ => none }

/-- The assignment `m[key] = value` on a map. -/
def mapSet {V : Type} (m : String → Option V) (key : String) (value : V) : String → Option V :=
  fun k => if k = key then some value else m k

/-- The function `AddSource`; the topic is not recorded. Returns the builder
after the call and the error (`none` is `nil`). -/
def AddSource {Fn : Type} (t : TopologyBuilder Fn) (name : String) (_topic : String)
    (keyDeserializer valueDeserializer : Fn) : TopologyBuilder Fn × Option Error :=
  let topoSource : TopologySource Fn :=
    { Name := name, Build := (keyDeserializer, valueDeserializer), ChildNodeNames := [] }
  match t.processors name with
  | some _ => (t, some Error.ErrNodeAlreadyExists)
  | none => ({ t with sources := mapSet t.sources name topoSource }, none)

/-- The function `AddSink`. -/
def AddSink {Fn : Type} (t : TopologyBuilder Fn) (name topic : String)
    (keySerializer valueSerializer : Fn) : TopologyBuilder Fn × Option Error :=
  let topoSink : TopologySink Fn :=
    { Name := name, Builder := (topic, keySerializer, valueSerializer) }
  ({ t with sinks := mapSet t.sinks name topoSink }, none)

/-- The loop `for _, store := range stores` at the end of `AddProcessor`. -/
def checkStores {Fn : Type} (t : TopologyBuilder Fn) : List String → Option Error
  | [] => none
  | store :: rest =>
    match t.stores store with
    | none => some (Error.New "store not found")
    | some _ => checkStores t rest

/-- The function `AddProcessor`. -/
def AddProcessor {Fn : Type} (t : TopologyBuilder Fn) (p : Fn) (name : String)
    (stores : List String) : TopologyBuilder Fn × Option Error :=
  let topoProcessor : TopologyProcessor Fn :=
    { Name := name, Build := p, ChildNodeNames := [], StoreNames := stores }
  match t.processors name with
  | some _ => (t, some Error.ErrNodeAlreadyExists)
  | none =>
    let t1 := { t with processors := mapSet t.processors name topoProcessor }
    (t1, checkStores t1 stores)

/-- The function `SetParent`. The descriptor behind the pointer
`t.processors[parent]` is updated in place, which is a new value under the same
key. -/
def SetParent {Fn : Type} (t : TopologyBuilder Fn) (parent child : String) :
    TopologyBuilder Fn × Option Error :=
  match t.processors parent with
  | none => (t, some Error.ErrNodeNotFound)
  | some parentNode =>
    let parentNode1 := { parentNode with ChildNodeNames := parentNode.ChildNodeNames ++ [child] }
    let t1 := { t with processors := mapSet t.processors parent parentNode1 }
    let t2 :=
      match t1.childNodes parent with
      | none => { t1 with childNodes := mapSet t1.childNodes parent [] }
      | some _ => t1
    let t3 :=
      { t2 with childNodes := mapSet t2.childNodes parent ((t2.childNodes parent).getD [] ++ [child]) }
    (t3, none)

/-- One call of the builder API. -/
inductive BuilderCall (Fn : Type) where
  | AddSource (name topic : String) (keyDeserializer valueDeserializer : Fn)
  | AddSink (name topic : String) (keySerializer valueSerializer : Fn)
  | AddProcessor (p : Fn) (name : String) (stores : List String)
  | SetParent (parent child : String)

/-- The builder after one call, whether the call returned an error or not. -/
def BuilderCall.run {Fn : Type} (t : TopologyBuilder Fn) : BuilderCall Fn → TopologyBuilder Fn
  | .AddSource name topic kd vd => (Streamz.AddSource t name topic kd vd).1
  | .AddSink name topic ks vs => (Streamz.AddSink t name topic ks vs).1
  | .AddProcessor p name stores => (Streamz.AddProcessor t p name stores).1
  | .SetParent parent child => (Streamz.SetParent t parent child).1

/-- The builder after a sequence of calls. -/
def runCalls {Fn : Type} : List (BuilderCall Fn) → TopologyBuilder Fn → TopologyBuilder Fn
  | [], t => t
  | c :: rest, t => runCalls rest (c.run t)

/-! ## Forwarding context (`context.go`)

The effects of a downstream `Process` call are a transition of a world `W`. -/

/-- GenericProcessor: the method `Process(k, v) error`. -/
structure GenericProcessor (W K V : Type) where
  Process : K → V → W → Option Error × W

/-- One call `p.Process(k, v)` made by `Forward`: the output name, the arguments
and the returned error. -/
structure Invocation (K V : Type) where
  name : String
  key : K
  value : V
  err : Option Error

/-- ProcessorContext: `outputs` lists the entries of the map in the order in
which `range` visits them (the keys are distinct); `outputErrors` is the error
map. -/
structure ProcessorContext (W K V : Type) where
  outputs : List (String × GenericProcessor W K V)
  outputErrors : String → Option Error

/-- The loop of `Forward` over the remaining entries, from error map `errs` and
world `w`; the third component lists the calls made, in order. -/
def forwardLoop {W K V : Type} (k : K) (v : V) :
    List (String × GenericProcessor W K V) → (String → Option Error) → W →
      (String → Option Error) × W × List (Invocation K V)
  | [], errs, w => (errs, w, [])
  | (name, p) :: rest, errs, w =>
    match p.Process k v w with
    | (some err, w1) =>
      let r := forwardLoop k v rest (mapSet errs name err) w1
      (r.1, r.2.1, ⟨name, k, v, some err⟩ :: r.2.2)
    | (none, w1) =>
      let r := forwardLoop k v rest errs w1
      (r.1, r.2.1, ⟨name, k, v, none⟩ :: r.2.2)

/-- The method `ProcessorContext.Forward`: the context and the world after the
call, and the calls made. -/
def Forward {W K V : Type} (c : ProcessorContext W K V) (k : K) (v : V) (w : W) :
    ProcessorContext W K V × W × List (Invocation K V) :=
  let r := forwardLoop k v c.outputs c.outputErrors w
  ({ c with outputErrors := r.1 }, r.2.1, r.2.2)

/-! ## Sink node (`internal/sink.go`)

A serializer is a Go function value `func(T) ([]byte, error)`; its call and the
call `client.Produce` are transitions of the world `W`. Byte slices are lists of
numbers. -/

/-- The fields of `kgo.Record` that `Process` sets. -/
structure Record where
  Key : List Nat
  Value : List Nat
  Topic : String
deriving DecidableEq, Repr

/-- SinkNode: the two serializers, the client (of which only `Produce` is
used) and the topic. -/
structure SinkNode (W K V : Type) where
  KeySerializer : K → W → (List Nat × Option Error) × W
  ValueSerializer : V → W → (List Nat × Option Error) × W
  client : Record → W → W
  topic : String

/-- One call made by `SinkNode.Process`. -/
inductive SinkCall (K V : Type) where
  | KeySerializer (k : K)
  | ValueSerializer (v : V)
  | Produce (r : Record)
deriving DecidableEq, Repr

/-- The method `SinkNode.Process`: the returned error, the world after the call
and the calls made, in order. -/
def SinkNode.Process {W K V : Type} (s : SinkNode W K V) (k : K) (v : V) (w : W) :
    Option Error × W × List (SinkCall K V) :=
  match s.KeySerializer k w with
  | ((_, some err), w1) =>
    (some (Error.Errorf "sinkNode: failed to marshal key: " err), w1, [SinkCall.KeySerializer k])
  | ((key, none), w1) =>
    match s.ValueSerializer v w1 with
    | ((_, some err), w2) =>
      (some (Error.Errorf "sinkNode: failed to marshal value: " err), w2,
        [SinkCall.KeySerializer k, SinkCall.ValueSerializer v])
    | ((value, none), w2) =>
      (none, s.client ⟨key, value, s.topic⟩ w2,
        [SinkCall.KeySerializer k, SinkCall.ValueSerializer v,
          SinkCall.Produce ⟨key, value, s.topic⟩])

/-! ## Example inputs -/

/-- A downstream node for the examples: the world is the log of delivered
records; a failing node returns an error and logs nothing. -/
def recordingOutput (name : String) (fails : Bool) :
    GenericProcessor (List (String × Nat × Nat)) Nat Nat :=
  ⟨fun k v w => if fails then (some (Error.New name), w) else (none, w ++ [(name, k, v)])⟩

/-- A context with outputs A, B, C of which only B fails, and no error recorded. -/
def threeOutputs : ProcessorContext (List (String × Nat × Nat)) Nat Nat :=
  { outputs := [("A", recordingOutput "A" false), ("B", recordingOutput "B" true),
      ("C", recordingOutput "C" false)]
    outputErrors := fun _ => none }

/-- A builder with one store `s1` and one processor `a` that uses it and has the
child `b`. -/
def sampleBuilder : TopologyBuilder Unit :=
  (SetParent
    (AddProcessor { NewTopologyBuilder Unit with stores := mapSet (fun _ => none) "s1" ⟨"s1", ()⟩ }
      () "a" ["s1"]).1 "a" "b").1

/-- A sink for the examples: the world is the list of records handed to the
client; a failing serializer returns the error `bad key` or `bad value`. -/
def sampleSink (keyFails valueFails : Bool) : SinkNode (List Record) Nat Nat :=
  { KeySerializer := fun k w =>
      if keyFails then (([], some (Error.New "bad key")), w) else (([k], none), w)
    ValueSerializer := fun v w =>
      if valueFails then (([], some (Error.New "bad value")), w) else (([v], none), w)
    client := fun r w => w ++ [r]
    topic := "out" }

/-- Three groups in which the first and the last share the processor `p1` and
the middle one shares nothing. -/
def spacedGroups : List PartitionGroup :=
  [⟨["t1"], ["p1"], []⟩, ⟨["t2"], ["p2"], []⟩, ⟨[], ["p1"], ["s1"]⟩]

/-- The growth rule of the Go runtime for slices of fewer than 256 elements
(twice the old capacity unless more is needed), with either behaviour of
`slices.Compact`. -/
def goRuntime (compactClears : Bool) : Runtime :=
  { grow := fun oldCap needed => if 2 * oldCap < needed then needed else 2 * oldCap
    compactClears := compactClears }

/-- Three groups of which two take their topics from one array `base = [t1, t2]`:
the group at address 0 has topics `[t9]` and processors `[p]`, the group at
address 1 has topics `base[1:2]` and processors `[r]`, and the group at address 2
has topics `base[0:1]`, of capacity 2, and processors `[p]`. Array 0 is `base`;
arrays 1 to 4 hold `[t9]`, `[p]`, `[r]`, `[p]`. -/
def sharedMemory : Memory :=
  { arrays := fun a i =>
      ([["t1", "t2"], ["t9"], ["p"], ["r"], ["p"]].getD a []).getD i ""
    next := 5
    groups := fun p =>
      ([⟨⟨1, 0, 1, 1⟩, ⟨2, 0, 1, 1⟩, ⟨0, 0, 0, 0⟩⟩,
        ⟨⟨0, 1, 1, 1⟩, ⟨3, 0, 1, 1⟩, ⟨0, 0, 0, 0⟩⟩,
        ⟨⟨0, 0, 1, 2⟩, ⟨4, 0, 1, 1⟩, ⟨0, 0, 0, 0⟩⟩] : List GroupStruct).getD p
        ⟨⟨0, 0, 0, 0⟩, ⟨0, 0, 0, 0⟩, ⟨0, 0, 0, 0⟩⟩ }

/-- The same three groups with every member slice in an array of its own: array 5
holds the topic `[t2]` of the group at address 1 and array 0 the topic `[t1]` of
the group at address 2. -/
def separateMemory : Memory :=
  { arrays := fun a i =>
      ([["t1"], ["t9"], ["p"], ["r"], ["p"], ["t2"]].getD a []).getD i ""
    next := 6
    groups := fun p =>
      ([⟨⟨1, 0, 1, 1⟩, ⟨2, 0, 1, 1⟩, ⟨0, 0, 0, 0⟩⟩,
        ⟨⟨5, 0, 1, 1⟩, ⟨3, 0, 1, 1⟩, ⟨0, 0, 0, 0⟩⟩,
        ⟨⟨0, 0, 1, 1⟩, ⟨4, 0, 1, 1⟩, ⟨0, 0, 0, 0⟩⟩] : List GroupStruct).getD p
        ⟨⟨0, 0, 0, 0⟩, ⟨0, 0, 0, 0⟩, ⟨0, 0, 0, 0⟩⟩ }

/-! ## Predicates used in the statements -/

/-- Two groups at different positions share a source topic, a processor name or
a store name. -/
def sharesMember (g h : PartitionGroup) : Prop :=
  (∃ x, x ∈ g.sourceTopics ∧ x ∈ h.sourceTopics)
    ∨ (∃ x, x ∈ g.processorNames ∧ x ∈ h.processorNames)
    ∨ (∃ x, x ∈ g.storeNames ∧ x ∈ h.storeNames)

/-- No two groups at different positions of the list share a member. -/
def PairwiseDisjoint (pgs : List PartitionGroup) : Prop :=
  ∀ (i j : Nat) (gi gj : PartitionGroup), i ≠ j → pgs[i]? = some gi → pgs[j]? = some gj → ¬ sharesMember gi gj

/-- One merging step: the group at position `b` is merged into the group at
position `a` and removed from the list. -/
def MergeStep (pgs out : List PartitionGroup) : Prop :=
  ∃ a b pgA pgB, a ≠ b ∧ pgs[a]? = some pgA ∧ pgs[b]? = some pgB ∧ sharesMember pgA pgB
    ∧ out = (pgs.set a (mergeInto pgA pgB)).eraseIdx b

/-- Two slices cannot reach a common array element: one of them has no capacity,
or they lie in different arrays, or their capacity windows do not overlap. -/
def Slice.disjoint (s t : Slice) : Prop :=
  s.cap = 0 ∨ t.cap = 0 ∨ s.arr ≠ t.arr ∨ s.off + s.cap ≤ t.off ∨ t.off + t.cap ≤ s.off

/-- The pointers of the list are pairwise distinct, every member slice of the
groups behind them is well formed (length within capacity, array allocated), and
no two of these member slices can reach a common array element. -/
def Separated (m : Memory) (pgs : List Nat) : Prop :=
  pgs.Nodup
    ∧ (∀ p, p ∈ pgs → ∀ f : Field,
        ((m.groups p).get f).len ≤ ((m.groups p).get f).cap
          ∧ (((m.groups p).get f).cap = 0 ∨ ((m.groups p).get f).arr < m.next))
    ∧ (∀ p, p ∈ pgs → ∀ q, q ∈ pgs → ∀ f g : Field, (p ≠ q ∨ f ≠ g) →
        Slice.disjoint ((m.groups p).get f) ((m.groups q).get g))

/-- The world reached from `w` by calling `Process(k, v)` of each listed output
once, one after the other in the order of the list. -/
def worldAfter {W K V : Type} (k : K) (v : V)
    (outs : List (String × GenericProcessor W K V)) (w : W) : W :=
  outs.foldl (fun w1 np => (np.2.Process k v w1).2) w

/-- The recorded parent-to-child edges: `b` is listed under `a` in `childNodes`
or in the `ChildNodeNames` of the processor `a`. -/
def Edge {Fn : Type} (t : TopologyBuilder Fn) (a b : String) : Prop :=
  (∃ l, t.childNodes a = some l ∧ b ∈ l)
    ∨ (∃ d, t.processors a = some d ∧ b ∈ d.ChildNodeNames)

/-- The recorded edges contain no cycle. -/
def Acyclic {Fn : Type} (t : TopologyBuilder Fn) : Prop :=
  ∀ a, ¬ Relation.TransGen (Edge t) a a

/-- No `SetParent(parent, child)` of the sequence is called in a state in which
`parent` can be reached from `child` along recorded edges (`child = parent`
included). -/
def CallsAvoidCycles {Fn : Type} : TopologyBuilder Fn → List (BuilderCall Fn) → Prop
  | _, [] => True
  | t, c :: rest =>
    (match c with
      | .SetParent parent child => ¬ Relation.ReflTransGen (Edge t) child parent
      | _ => True)
    ∧ CallsAvoidCycles (c.run t) rest

/-- The groups `g` and `h` have the same members when each member list is read
as a set. -/
def sameMembers (g h : PartitionGroup) : Prop :=
  (∀ x, x ∈ g.sourceTopics ↔ x ∈ h.sourceTopics)
    ∧ (∀ x, x ∈ g.processorNames ↔ x ∈ h.processorNames)
    ∧ (∀ x, x ∈ g.storeNames ↔ x ∈ h.storeNames)

/-- Every member of `g` is a member of `h`. -/
def subMembers (g h : PartitionGroup) : Prop :=
  (∀ x, x ∈ g.sourceTopics → x ∈ h.sourceTopics)
    ∧ (∀ x, x ∈ g.processorNames → x ∈ h.processorNames)
    ∧ (∀ x, x ∈ g.storeNames → x ∈ h.storeNames)

/-- The group has no member at all. -/
def noMembers (g : PartitionGroup) : Prop :=
  g.sourceTopics = [] ∧ g.processorNames = [] ∧ g.storeNames = []

/-- Groups obtained from the groups of `inp` by merging groups that share a
member. -/
inductive Linked (inp : List PartitionGroup) : PartitionGroup → Prop
  | base (g : PartitionGroup) : g ∈ inp → Linked inp g
  | merge (A B : PartitionGroup) :
      Linked inp A → Linked inp B → sharesMember A B → Linked inp (mergeInto A B)

/-- The group read as three sets of members. -/
def memberSets (g : PartitionGroup) : Finset String × Finset String × Finset String :=
  (g.sourceTopics.toFinset, g.processorNames.toFinset, g.storeNames.toFinset)

/-- What the loop maintains with respect to its input `inp`. -/
structure MergeInv (inp cur : List PartitionGroup) : Prop where
  linked : ∀ g, g ∈ cur → Linked inp g
  covers : ∀ g, g ∈ inp → ∃ h, h ∈ cur ∧ subMembers g h
  keeps : ∀ g, g ∈ inp → noMembers g → g ∈ cur

/-! ## Basic facts about the helpers -/

theorem containsAny_iff {E : Type} [DecidableEq E] (s v : List E) :
    ContainsAny s v = true ↔ ∃ x, x ∈ s ∧ x ∈ v := by
  simp [ContainsAny]

theorem overlaps_iff (pg otherPg : PartitionGroup) :
    overlaps pg otherPg = true ↔ sharesMember pg otherPg := by
  simp only [overlaps, Bool.or_eq_true, containsAny_iff, sharesMember, or_assoc]
  constructor
  · rintro (⟨x, h1, h2⟩ | ⟨x, h1, h2⟩ | ⟨x, h1, h2⟩)
    · exact Or.inl ⟨x, h2, h1⟩
    · exact Or.inr (Or.inl ⟨x, h2, h1⟩)
    · exact Or.inr (Or.inr ⟨x, h2, h1⟩)
  · rintro (⟨x, h1, h2⟩ | ⟨x, h1, h2⟩ | ⟨x, h1, h2⟩)
    · exact Or.inl ⟨x, h2, h1⟩
    · exact Or.inr (Or.inl ⟨x, h2, h1⟩)
    · exact Or.inr (Or.inr ⟨x, h2, h1⟩)

theorem sharesMember_symm {g h : PartitionGroup} (H : sharesMember g h) : sharesMember h g := by
  rcases H with ⟨x, h1, h2⟩ | ⟨x, h1, h2⟩ | ⟨x, h1, h2⟩
  · exact Or.inl ⟨x, h2, h1⟩
  · exact Or.inr (Or.inl ⟨x, h2, h1⟩)
  · exact Or.inr (Or.inr ⟨x, h2, h1⟩)

theorem mem_compactFrom {E : Type} [DecidableEq E] (l : List E) (prev x : E) :
    x ∈ compactFrom prev l → x ∈ l := by
  induction l generalizing prev with
  | nil => simp [compactFrom]
  | cons y rest ih =>
    intro h
    simp only [compactFrom] at h
    split at h
    · exact List.mem_cons_of_mem _ (ih _ h)
    · rcases List.mem_cons.1 h with h | h
      · exact h ▸ List.mem_cons_self _ _
      · exact List.mem_cons_of_mem _ (ih _ h)

theorem mem_compactFrom_or {E : Type} [DecidableEq E] (l : List E) (prev x : E) :
    x ∈ l → x = prev ∨ x ∈ compactFrom prev l := by
  induction l generalizing prev with
  | nil => simp
  | cons y rest ih =>
    intro h
    simp only [compactFrom]
    rcases List.mem_cons.1 h with h | h
    · subst h
      by_cases hp : x = prev
      · exact Or.inl hp
      · right; simp [hp]
    · rcases ih y h with h1 | h1
      · subst h1
        by_cases hp : x = prev
        · exact Or.inl hp
        · right; simp [hp]
      · right
        split
        · exact h1
        · exact List.mem_cons_of_mem _ h1

theorem mem_Compact {E : Type} [DecidableEq E] (l : List E) (x : E) :
    x ∈ Compact l ↔ x ∈ l := by
  cases l with
  | nil => simp [Compact]
  | cons y rest =>
    simp only [Compact, List.mem_cons]
    constructor
    · rintro (h | h)
      · exact Or.inl h
      · exact Or.inr (mem_compactFrom _ _ _ h)
    · rintro (h | h)
      · exact Or.inl h
      · exact (mem_compactFrom_or rest y x h)

theorem innerScan_some (i : Nat) (pg : PartitionGroup) (l : List PartitionGroup) (d0 d : Nat)
    (h : innerScan i pg d0 l = some d) :
    d ≠ i ∧ d0 ≤ d ∧ ∃ other, l[d - d0]? = some other ∧ overlaps pg other = true := by
  induction l generalizing d0 with
  | nil => simp [innerScan] at h
  | cons o rest ih =>
    simp only [innerScan] at h
    split at h
    · obtain ⟨h1, h2, other, h3, h4⟩ := ih _ h
      refine ⟨h1, by omega, other, ?_, h4⟩
      have : d - d0 = (d - (d0 + 1)) + 1 := by omega
      rw [this]; simpa using h3
    · split at h
      · cases h
        next hov hne =>
        exact ⟨fun e => hne e.symm, le_refl _, o, by simp, hov⟩
      · obtain ⟨h1, h2, other, h3, h4⟩ := ih _ h
        refine ⟨h1, by omega, other, ?_, h4⟩
        have : d - d0 = (d - (d0 + 1)) + 1 := by omega
        rw [this]; simpa using h3

theorem innerScan_none (i : Nat) (pg : PartitionGroup) (l : List PartitionGroup) (d0 : Nat)
    (h : innerScan i pg d0 l = none) :
    ∀ k other, l[k]? = some other → d0 + k ≠ i → overlaps pg other = false := by
  induction l generalizing d0 with
  | nil => intro k other hk; simp at hk
  | cons o rest ih =>
    intro k other hk hne
    simp only [innerScan] at h
    cases k with
    | zero =>
      simp at hk; subst hk
      split at h
      · next e => exact absurd e.symm (by simpa using hne)
      · split at h
        · cases h
        · next hov => simpa using hov
    | succ k =>
      simp at hk
      split at h
      · exact ih _ h k other hk (by omega)
      · split at h
        · cases h
        · exact ih _ h k other hk (by omega)

theorem outerScan_some (pgs l : List PartitionGroup) (i0 i d : Nat)
    (h : outerScan pgs i0 l = some (i, d)) :
    i0 ≤ i ∧ ∃ pg, l[i - i0]? = some pg ∧ innerScan i pg 0 pgs = some d := by
  induction l generalizing i0 with
  | nil => simp [outerScan] at h
  | cons g rest ih =>
    simp only [outerScan] at h
    split at h
    · next d' hd =>
      cases h
      exact ⟨le_refl _, g, by simp, hd⟩
    · obtain ⟨h1, pg, h2, h3⟩ := ih _ h
      refine ⟨by omega, pg, ?_, h3⟩
      have : i - i0 = (i - (i0 + 1)) + 1 := by omega
      rw [this]; simpa using h2

theorem outerScan_none (pgs l : List PartitionGroup) (i0 : Nat)
    (h : outerScan pgs i0 l = none) :
    ∀ k pg, l[k]? = some pg → innerScan (i0 + k) pg 0 pgs = none := by
  induction l generalizing i0 with
  | nil => intro k pg hk; simp at hk
  | cons g rest ih =>
    intro k pg hk
    simp only [outerScan] at h
    split at h
    · cases h
    · next hn =>
      cases k with
      | zero => simp at hk; subst hk; simpa using hn
      | succ k =>
        simp at hk
        have := ih _ h k pg hk
        rwa [show i0 + 1 + k = i0 + (k + 1) by omega] at this

/-- The two outcomes of `mergeIteration`: either the list is returned unchanged
with `done = true` and is pairwise disjoint, or one merging step was made with
`done = false`. -/
theorem mergeIteration_cases (pgs : List PartitionGroup) :
    (mergeIteration pgs = (pgs, true) ∧ PairwiseDisjoint pgs)
      ∨ (∃ out, mergeIteration pgs = (out, false) ∧ MergeStep pgs out) := by
  unfold mergeIteration
  cases hs : outerScan pgs 0 pgs with
  | none =>
    left
    refine ⟨rfl, ?_⟩
    intro i j gi gj hij hi hj hsh
    have h1 := outerScan_none pgs pgs 0 hs i gi hi
    have h2 := innerScan_none _ gi pgs 0 h1 j gj hj (by omega)
    rw [(overlaps_iff gi gj).2 hsh] at h2
    cases h2
  | some p =>
    right
    obtain ⟨i, d⟩ := p
    obtain ⟨_, pg, hpg, hin⟩ := outerScan_some pgs pgs 0 i d hs
    obtain ⟨hne, _, other, hother, hov⟩ := innerScan_some i pg pgs 0 d hin
    simp only [Nat.sub_zero] at hpg hother
    have hsh := (overlaps_iff pg other).1 hov
    by_cases hlt : i < d
    · simp only [hlt, if_true, hpg, hother]
      exact ⟨_, rfl, d, i, other, pg, hne, hother, hpg, sharesMember_symm hsh, rfl⟩
    · simp only [hlt, if_false, hpg, hother]
      exact ⟨_, rfl, i, d, pg, other, fun e => hne e.symm, hpg, hother, hsh, rfl⟩

theorem MergeStep.length {pgs out : List PartitionGroup} (h : MergeStep pgs out) :
    out.length + 1 = pgs.length := by
  obtain ⟨a, b, pgA, pgB, _, _, hb, _, rfl⟩ := h
  obtain ⟨hb', _⟩ := List.getElem?_eq_some.1 hb
  rw [List.length_eraseIdx, List.length_set]
  simp only [List.length_set, hb', if_true]
  omega

/-- Membership in the list produced by a merging step. -/
theorem mem_step {pgs : List PartitionGroup} {a b : Nat} {pgA : PartitionGroup}
    (m g : PartitionGroup) (hab : a ≠ b) (ha : pgs[a]? = some pgA) :
    g ∈ (pgs.set a m).eraseIdx b
      ↔ g = m ∨ ∃ k, k ≠ a ∧ k ≠ b ∧ pgs[k]? = some g := by
  obtain ⟨ha', _⟩ := List.getElem?_eq_some.1 ha
  rw [List.mem_eraseIdx_iff_getElem?]
  constructor
  · rintro ⟨k, hkb, hk⟩
    by_cases hka : a = k
    · subst hka
      rw [List.getElem?_set_self ha'] at hk
      exact Or.inl (Option.some.inj hk).symm
    · rw [List.getElem?_set_ne hka] at hk
      exact Or.inr ⟨k, fun e => hka e.symm, hkb, hk⟩
  · rintro (rfl | ⟨k, hka, hkb, hk⟩)
    · exact ⟨a, hab, List.getElem?_set_self ha'⟩
    · exact ⟨k, hkb, by rw [List.getElem?_set_ne (fun e => hka e.symm)]; exact hk⟩

/-- Outcome of the loop: the result is reached from the input by merging steps,
and `mergeIteration` reports `done` on it. -/
theorem mergeLoop_some (fuel : Nat) (pgs out : List PartitionGroup)
    (h : mergeLoop fuel pgs = some out) :
    Relation.ReflTransGen MergeStep pgs out ∧ mergeIteration out = (out, true)
      ∧ PairwiseDisjoint out := by
  induction fuel generalizing pgs with
  | zero =>
    unfold mergeLoop at h
    rcases mergeIteration_cases pgs with ⟨h1, h2⟩ | ⟨o, h1, _⟩
    · rw [h1] at h
      cases h
      exact ⟨Relation.ReflTransGen.refl, h1, h2⟩
    · rw [h1] at h
      cases h
  | succ f ih =>
    unfold mergeLoop at h
    rcases mergeIteration_cases pgs with ⟨h1, h2⟩ | ⟨o, h1, h2⟩
    · rw [h1] at h
      cases h
      exact ⟨Relation.ReflTransGen.refl, h1, h2⟩
    · rw [h1] at h
      obtain ⟨h3, h4⟩ := ih o h
      exact ⟨Relation.ReflTransGen.head h2 h3, h4⟩

/-- The loop returns within `len(pgs) - 1` merges. -/
theorem mergeLoop_total (fuel : Nat) (pgs : List PartitionGroup)
    (h : pgs.length ≤ fuel + 1) : ∃ out, mergeLoop fuel pgs = some out := by
  induction fuel generalizing pgs with
  | zero =>
    unfold mergeLoop
    rcases mergeIteration_cases pgs with ⟨h1, _⟩ | ⟨o, h1, h2⟩
    · rw [h1]; exact ⟨_, rfl⟩
    · have := h2.length
      obtain ⟨a, b, pgA, pgB, hab, ha, hb, _⟩ := h2
      obtain ⟨ha', _⟩ := List.getElem?_eq_some.1 ha
      obtain ⟨hb', _⟩ := List.getElem?_eq_some.1 hb
      omega
  | succ f ih =>
    unfold mergeLoop
    rcases mergeIteration_cases pgs with ⟨h1, _⟩ | ⟨o, h1, h2⟩
    · rw [h1]; exact ⟨_, rfl⟩
    · rw [h1]
      have := h2.length
      exact ih o (by omega)

/-- A larger budget does not change the result. -/
theorem mergeLoop_mono (fuel k : Nat) (pgs out : List PartitionGroup)
    (h : mergeLoop fuel pgs = some out) : mergeLoop (fuel + k) pgs = some out := by
  induction fuel generalizing pgs with
  | zero =>
    unfold mergeLoop at h ⊢
    rcases mergeIteration_cases pgs with ⟨h1, _⟩ | ⟨o, h1, _⟩
    · rw [h1] at h ⊢; exact h
    · rw [h1] at h; cases h
  | succ f ih =>
    unfold mergeLoop at h ⊢
    rcases mergeIteration_cases pgs with ⟨h1, _⟩ | ⟨o, h1, _⟩
    · rw [h1] at h ⊢; exact h
    · rw [h1] at h ⊢
      rw [show f + 1 + k = (f + k) + 1 by omega]
      exact ih o h

theorem mergePartitionGroups_total (pgs : List PartitionGroup) :
    ∃ out, mergePartitionGroups pgs = some out :=
  mergeLoop_total _ pgs (Nat.le_succ _)

theorem mem_mergeInto_sourceTopics (A B : PartitionGroup) (x : String) :
    x ∈ (mergeInto A B).sourceTopics ↔ x ∈ A.sourceTopics ∨ x ∈ B.sourceTopics := by
  simp [mergeInto, mem_Compact]

theorem mem_mergeInto_processorNames (A B : PartitionGroup) (x : String) :
    x ∈ (mergeInto A B).processorNames ↔ x ∈ A.processorNames ∨ x ∈ B.processorNames := by
  simp [mergeInto, mem_Compact]

theorem mem_mergeInto_storeNames (A B : PartitionGroup) (x : String) :
    x ∈ (mergeInto A B).storeNames ↔ x ∈ A.storeNames ∨ x ∈ B.storeNames := by
  simp [mergeInto, mem_Compact]

/-- A merging step keeps the set of members of each kind (`f` is one of the
three member lists). -/
theorem MergeStep.members {pgs out : List PartitionGroup} (f : PartitionGroup → List String)
    (hf : ∀ A B x, x ∈ f (mergeInto A B) ↔ x ∈ f A ∨ x ∈ f B)
    (h : MergeStep pgs out) (x : String) :
    (∃ g, g ∈ out ∧ x ∈ f g) ↔ (∃ g, g ∈ pgs ∧ x ∈ f g) := by
  obtain ⟨a, b, pgA, pgB, hab, ha, hb, _, rfl⟩ := h
  constructor
  · rintro ⟨g, hg, hx⟩
    rcases (mem_step _ g hab ha).1 hg with rfl | ⟨k, _, _, hk⟩
    · rcases (hf _ _ _).1 hx with hx | hx
      · exact ⟨pgA, List.mem_iff_getElem?.2 ⟨a, ha⟩, hx⟩
      · exact ⟨pgB, List.mem_iff_getElem?.2 ⟨b, hb⟩, hx⟩
    · exact ⟨g, List.mem_iff_getElem?.2 ⟨k, hk⟩, hx⟩
  · rintro ⟨g, hg, hx⟩
    obtain ⟨k, hk⟩ := List.mem_iff_getElem?.1 hg
    by_cases hka : k = a
    · subst hka
      rw [ha] at hk; cases hk
      exact ⟨_, (mem_step _ _ hab ha).2 (Or.inl rfl), (hf _ _ _).2 (Or.inl hx)⟩
    · by_cases hkb : k = b
      · subst hkb
        rw [hb] at hk; cases hk
        exact ⟨_, (mem_step _ _ hab ha).2 (Or.inl rfl), (hf _ _ _).2 (Or.inr hx)⟩
      · exact ⟨g, (mem_step _ _ hab ha).2 (Or.inr ⟨k, hka, hkb, hk⟩), hx⟩

theorem steps_members {pgs out : List PartitionGroup} (f : PartitionGroup → List String)
    (hf : ∀ A B x, x ∈ f (mergeInto A B) ↔ x ∈ f A ∨ x ∈ f B)
    (h : Relation.ReflTransGen MergeStep pgs out) (x : String) :
    (∃ g, g ∈ out ∧ x ∈ f g) ↔ (∃ g, g ∈ pgs ∧ x ∈ f g) := by
  induction h with
  | refl => exact Iff.rfl
  | tail _ hstep ih => exact (hstep.members f hf x).trans ih

/-! ## Order independence -/

theorem subMembers_refl (g : PartitionGroup) : subMembers g g :=
  ⟨fun _ h => h, fun _ h => h, fun _ h => h⟩

theorem subMembers_trans {g h k : PartitionGroup} (h1 : subMembers g h) (h2 : subMembers h k) :
    subMembers g k :=
  ⟨fun x hx => h2.1 x (h1.1 x hx), fun x hx => h2.2.1 x (h1.2.1 x hx),
    fun x hx => h2.2.2 x (h1.2.2 x hx)⟩

theorem sameMembers_of_sub {g h : PartitionGroup} (h1 : subMembers g h) (h2 : subMembers h g) :
    sameMembers g h :=
  ⟨fun x => ⟨h1.1 x, h2.1 x⟩, fun x => ⟨h1.2.1 x, h2.2.1 x⟩, fun x => ⟨h1.2.2 x, h2.2.2 x⟩⟩

theorem subMembers_mergeInto_left (A B : PartitionGroup) : subMembers A (mergeInto A B) :=
  ⟨fun x h => (mem_mergeInto_sourceTopics A B x).2 (Or.inl h),
    fun x h => (mem_mergeInto_processorNames A B x).2 (Or.inl h),
    fun x h => (mem_mergeInto_storeNames A B x).2 (Or.inl h)⟩

theorem subMembers_mergeInto_right (A B : PartitionGroup) : subMembers B (mergeInto A B) :=
  ⟨fun x h => (mem_mergeInto_sourceTopics A B x).2 (Or.inr h),
    fun x h => (mem_mergeInto_processorNames A B x).2 (Or.inr h),
    fun x h => (mem_mergeInto_storeNames A B x).2 (Or.inr h)⟩

theorem mergeInto_subMembers {A B h : PartitionGroup} (hA : subMembers A h)
    (hB : subMembers B h) : subMembers (mergeInto A B) h :=
  ⟨fun x hx => ((mem_mergeInto_sourceTopics A B x).1 hx).elim (hA.1 x) (hB.1 x),
    fun x hx => ((mem_mergeInto_processorNames A B x).1 hx).elim (hA.2.1 x) (hB.2.1 x),
    fun x hx => ((mem_mergeInto_storeNames A B x).1 hx).elim (hA.2.2 x) (hB.2.2 x)⟩

theorem sharesMember_mono {g h g' h' : PartitionGroup} (H : sharesMember g h)
    (hg : subMembers g g') (hh : subMembers h h') : sharesMember g' h' := by
  rcases H with ⟨x, h1, h2⟩ | ⟨x, h1, h2⟩ | ⟨x, h1, h2⟩
  · exact Or.inl ⟨x, hg.1 x h1, hh.1 x h2⟩
  · exact Or.inr (Or.inl ⟨x, hg.2.1 x h1, hh.2.1 x h2⟩)
  · exact Or.inr (Or.inr ⟨x, hg.2.2 x h1, hh.2.2 x h2⟩)

theorem not_noMembers_of_shares {g h : PartitionGroup} (H : sharesMember g h) : ¬ noMembers g := by
  rintro ⟨h1, h2, h3⟩
  rcases H with ⟨x, hx, _⟩ | ⟨x, hx, _⟩ | ⟨x, hx, _⟩
  · rw [h1] at hx; cases hx
  · rw [h2] at hx; cases hx
  · rw [h3] at hx; cases hx

theorem sharesMember_self_of_members {g : PartitionGroup} (h : ¬ noMembers g) :
    sharesMember g g := by
  unfold noMembers at h
  by_cases h1 : g.sourceTopics = []
  · by_cases h2 : g.processorNames = []
    · have h3 : g.storeNames ≠ [] := fun h3 => h ⟨h1, h2, h3⟩
      obtain ⟨x, hx⟩ := List.exists_mem_of_ne_nil _ h3
      exact Or.inr (Or.inr ⟨x, hx, hx⟩)
    · obtain ⟨x, hx⟩ := List.exists_mem_of_ne_nil _ h2
      exact Or.inr (Or.inl ⟨x, hx, hx⟩)
  · obtain ⟨x, hx⟩ := List.exists_mem_of_ne_nil _ h1
    exact Or.inl ⟨x, hx, hx⟩

theorem Linked.mono {inp inp' : List PartitionGroup} {g : PartitionGroup}
    (hsub : ∀ x, x ∈ inp → x ∈ inp') (h : Linked inp g) : Linked inp' g := by
  induction h with
  | base g hg => exact Linked.base g (hsub g hg)
  | merge A B _ _ hsh ihA ihB => exact Linked.merge A B ihA ihB hsh

/-- A linked group without members is one of the input groups. -/
theorem Linked.mem_of_noMembers {inp : List PartitionGroup} {g : PartitionGroup}
    (h : Linked inp g) (hn : noMembers g) : g ∈ inp := by
  cases h with
  | base g hg => exact hg
  | merge A B _ _ hsh =>
    exact absurd hn (not_noMembers_of_shares
      (sharesMember_mono hsh (subMembers_mergeInto_left A B) (subMembers_refl B)))

/-- A linked group lies inside a single group of any pairwise disjoint list that
covers the input. -/
theorem Linked.covered {inp fin : List PartitionGroup} (hdis : PairwiseDisjoint fin)
    (hcov : ∀ g, g ∈ inp → ∃ h, h ∈ fin ∧ subMembers g h) {g : PartitionGroup}
    (hg : Linked inp g) : ∃ h, h ∈ fin ∧ subMembers g h := by
  induction hg with
  | base g hg => exact hcov g hg
  | merge A B _ _ hsh ihA ihB =>
    obtain ⟨hA, hAm, hAs⟩ := ihA
    obtain ⟨hB, hBm, hBs⟩ := ihB
    obtain ⟨i, hi⟩ := List.mem_iff_getElem?.1 hAm
    obtain ⟨j, hj⟩ := List.mem_iff_getElem?.1 hBm
    have hsh' := sharesMember_mono hsh hAs hBs
    have hij : i = j := by
      by_contra hne
      exact hdis i j hA hB hne hi hj hsh'
    subst hij
    rw [hi] at hj; cases hj
    exact ⟨hA, hAm, mergeInto_subMembers hAs hBs⟩

theorem MergeInv.refl (inp : List PartitionGroup) : MergeInv inp inp :=
  ⟨fun g hg => Linked.base g hg, fun g hg => ⟨g, hg, subMembers_refl g⟩, fun _ hg _ => hg⟩

theorem MergeInv.step {inp cur out : List PartitionGroup} (hinv : MergeInv inp cur)
    (h : MergeStep cur out) : MergeInv inp out := by
  obtain ⟨a, b, pgA, pgB, hab, ha, hb, hsh, rfl⟩ := h
  have hmA : pgA ∈ cur := List.mem_iff_getElem?.2 ⟨a, ha⟩
  have hmB : pgB ∈ cur := List.mem_iff_getElem?.2 ⟨b, hb⟩
  refine ⟨?_, ?_, ?_⟩
  · intro g hg
    rcases (mem_step _ g hab ha).1 hg with rfl | ⟨k, _, _, hk⟩
    · exact Linked.merge pgA pgB (hinv.linked _ hmA) (hinv.linked _ hmB) hsh
    · exact hinv.linked _ (List.mem_iff_getElem?.2 ⟨k, hk⟩)
  · intro g hg
    obtain ⟨h, hh, hs⟩ := hinv.covers g hg
    obtain ⟨k, hk⟩ := List.mem_iff_getElem?.1 hh
    by_cases hka : k = a
    · subst hka
      rw [ha] at hk; cases hk
      exact ⟨_, (mem_step _ _ hab ha).2 (Or.inl rfl),
        subMembers_trans hs (subMembers_mergeInto_left _ _)⟩
    · by_cases hkb : k = b
      · subst hkb
        rw [hb] at hk; cases hk
        exact ⟨_, (mem_step _ _ hab ha).2 (Or.inl rfl),
          subMembers_trans hs (subMembers_mergeInto_right _ _)⟩
      · exact ⟨h, (mem_step _ _ hab ha).2 (Or.inr ⟨k, hka, hkb, hk⟩), hs⟩
  · intro g hg hn
    obtain ⟨k, hk⟩ := List.mem_iff_getElem?.1 (hinv.keeps g hg hn)
    have hka : k ≠ a := by
      rintro rfl
      rw [ha] at hk; cases hk
      exact not_noMembers_of_shares hsh hn
    have hkb : k ≠ b := by
      rintro rfl
      rw [hb] at hk; cases hk
      exact not_noMembers_of_shares (sharesMember_symm hsh) hn
    exact (mem_step _ _ hab ha).2 (Or.inr ⟨k, hka, hkb, hk⟩)

theorem MergeInv.steps {inp out : List PartitionGroup}
    (h : Relation.ReflTransGen MergeStep inp out) : MergeInv inp out := by
  induction h with
  | refl => exact MergeInv.refl inp
  | tail _ hstep ih => exact ih.step hstep

/-- One half of order independence: every group of a result for `inp` has the
same members as some group of any result for an input with the same groups. -/
theorem merged_groups_found {inp inp' out out' : List PartitionGroup}
    (hmem : ∀ g, g ∈ inp ↔ g ∈ inp')
    (hinv : MergeInv inp out) (hdis : PairwiseDisjoint out)
    (hinv' : MergeInv inp' out') (hdis' : PairwiseDisjoint out')
    (g : PartitionGroup) (hg : g ∈ out) : ∃ g', g' ∈ out' ∧ sameMembers g g' := by
  have hl : Linked inp' g := (hinv.linked g hg).mono (fun x hx => (hmem x).1 hx)
  by_cases hn : noMembers g
  · exact ⟨g, hinv'.keeps g (hl.mem_of_noMembers hn) hn,
      sameMembers_of_sub (subMembers_refl g) (subMembers_refl g)⟩
  · obtain ⟨g', hg', hs⟩ := hl.covered hdis' hinv'.covers
    have hl' : Linked inp g' := (hinv'.linked g' hg').mono (fun x hx => (hmem x).2 hx)
    obtain ⟨g'', hg'', hs'⟩ := hl'.covered hdis hinv.covers
    obtain ⟨i, hi⟩ := List.mem_iff_getElem?.1 hg
    obtain ⟨j, hj⟩ := List.mem_iff_getElem?.1 hg''
    have hsh : sharesMember g g'' :=
      sharesMember_mono (sharesMember_self_of_members hn) (subMembers_refl g)
        (subMembers_trans hs hs')
    have hij : i = j := by
      by_contra hne
      exact hdis i j g g'' hne hi hj hsh
    subst hij
    rw [hi] at hj; cases hj
    exact ⟨g', hg', sameMembers_of_sub hs hs'⟩

theorem memberSets_eq_iff (g h : PartitionGroup) :
    memberSets g = memberSets h ↔ sameMembers g h := by
  simp only [memberSets, Prod.mk.injEq, Finset.ext_iff, List.mem_toFinset, sameMembers]

theorem memberSets_eq_empty_iff (g : PartitionGroup) :
    memberSets g = (∅, ∅, ∅) ↔ noMembers g := by
  simp only [memberSets, Prod.mk.injEq, List.toFinset_eq_empty_iff, noMembers]

theorem countP_set_of_false (p : PartitionGroup → Bool) (l : List PartitionGroup) (a : Nat)
    (A m : PartitionGroup) (ha : l[a]? = some A) (hA : p A = false) (hm : p m = false) :
    (l.set a m).countP p = l.countP p := by
  induction l generalizing a with
  | nil => simp
  | cons g rest ih =>
    cases a with
    | zero =>
      simp at ha; subst ha
      simp [List.countP_cons, hA, hm]
    | succ a =>
      simp at ha
      simp [List.countP_cons, ih a ha]

theorem countP_eraseIdx_of_false (p : PartitionGroup → Bool) (l : List PartitionGroup) (b : Nat)
    (B : PartitionGroup) (hb : l[b]? = some B) (hB : p B = false) :
    (l.eraseIdx b).countP p = l.countP p := by
  induction l generalizing b with
  | nil => simp
  | cons g rest ih =>
    cases b with
    | zero =>
      simp at hb; subst hb
      simp [List.countP_cons, hB]
    | succ b =>
      simp at hb
      simp [List.countP_cons, ih b hb]

/-- A merging step touches no group without members, so their number stays
(`p` is any test that only groups without members pass). -/
theorem MergeStep.countP_noMembers {pgs out : List PartitionGroup} (p : PartitionGroup → Bool)
    (hp : ∀ g, p g = true → noMembers g) (h : MergeStep pgs out) :
    out.countP p = pgs.countP p := by
  obtain ⟨a, b, pgA, pgB, hab, ha, hb, hsh, rfl⟩ := h
  have hfalse : ∀ g, ¬ noMembers g → p g = false := by
    intro g hg
    cases hpg : p g with
    | false => rfl
    | true => exact absurd (hp g hpg) hg
  have hA := hfalse pgA (not_noMembers_of_shares hsh)
  have hB := hfalse pgB (not_noMembers_of_shares (sharesMember_symm hsh))
  have hm := hfalse (mergeInto pgA pgB) (not_noMembers_of_shares
    (sharesMember_mono hsh (subMembers_mergeInto_left pgA pgB) (subMembers_refl pgB)))
  rw [countP_eraseIdx_of_false _ _ b pgB (by rw [List.getElem?_set_ne hab]; exact hb) hB,
    countP_set_of_false _ _ a pgA _ ha hA hm]

theorem steps_countP_noMembers {pgs out : List PartitionGroup} (p : PartitionGroup → Bool)
    (hp : ∀ g, p g = true → noMembers g) (h : Relation.ReflTransGen MergeStep pgs out) :
    out.countP p = pgs.countP p := by
  induction h with
  | refl => rfl
  | tail _ hstep ih => exact (hstep.countP_noMembers p hp).trans ih

/-- In a pairwise disjoint list a non-empty triple of member sets occurs at most
once (`p` tests for the triple `c`). -/
theorem countP_memberSets_le_one (l : List PartitionGroup)
    (c : Finset String × Finset String × Finset String) (hc : c ≠ (∅, ∅, ∅))
    (p : PartitionGroup → Bool) (hp : ∀ g, p g = true ↔ memberSets g = c)
    (hdis : PairwiseDisjoint l) : l.countP p ≤ 1 := by
  induction l with
  | nil => simp
  | cons g rest ih =>
    have hrest : PairwiseDisjoint rest := by
      intro i j gi gj hij hi hj
      exact hdis (i + 1) (j + 1) gi gj (by omega) (by simpa using hi) (by simpa using hj)
    rw [List.countP_cons]
    by_cases hg : p g = true
    · have hzero : rest.countP p = 0 := by
        rw [List.countP_eq_zero]
        intro g' hg' hpg'
        obtain ⟨k, hk'⟩ := List.mem_iff_getElem?.1 hg'
        have hsame : sameMembers g g' :=
          (memberSets_eq_iff g g').1 (((hp g).1 hg).trans ((hp g').1 hpg').symm)
        have hne : ¬ noMembers g :=
          fun hn => hc (((hp g).1 hg) ▸ (memberSets_eq_empty_iff g).2 hn)
        have hsh : sharesMember g g' :=
          sharesMember_mono (sharesMember_self_of_members hne) (subMembers_refl g)
            ⟨fun x => (hsame.1 x).1, fun x => (hsame.2.1 x).1, fun x => (hsame.2.2 x).1⟩
        exact hdis 0 (k + 1) g g' (by omega) (by simp) (by simpa using hk') hsh
      rw [hzero]
      split <;> omega
    · have := ih hrest
      simp only [hg]
      simpa using this

/-! ## The claims about `mergePartitionGroups` -/

/-- C1: for every list of partition groups, `mergePartitionGroups` returns a list
in which no two groups at different positions share a source topic, a processor
name or a store name. -/
theorem mergePartitionGroups_pairwise_disjoint (pgs : List PartitionGroup) :
    ∃ out, mergePartitionGroups pgs = some out ∧
      ∀ (i j : Nat) (gi gj : PartitionGroup), i ≠ j → out[i]? = some gi → out[j]? = some gj →
        (∀ x, x ∈ gi.sourceTopics → x ∉ gj.sourceTopics)
          ∧ (∀ x, x ∈ gi.processorNames → x ∉ gj.processorNames)
          ∧ (∀ x, x ∈ gi.storeNames → x ∉ gj.storeNames) := by
  obtain ⟨out, hout⟩ := mergePartitionGroups_total pgs
  refine ⟨out, hout, ?_⟩
  obtain ⟨_, _, hdis⟩ := mergeLoop_some _ _ _ hout
  intro i j gi gj hij hi hj
  have := hdis i j gi gj hij hi hj
  refine ⟨fun x h1 h2 => this (Or.inl ⟨x, h1, h2⟩),
    fun x h1 h2 => this (Or.inr (Or.inl ⟨x, h1, h2⟩)),
    fun x h1 h2 => this (Or.inr (Or.inr ⟨x, h1, h2⟩))⟩

/-- On group values `mergePartitionGroups` loses and invents no member: the source
topics occurring in the output groups are exactly those occurring in the input
groups, and likewise for processor names and store names. -/
theorem mergePartitionGroups_preserves_members (pgs : List PartitionGroup) :
    ∃ out, mergePartitionGroups pgs = some out ∧
      (∀ x, (∃ g, g ∈ out ∧ x ∈ g.sourceTopics) ↔ (∃ g, g ∈ pgs ∧ x ∈ g.sourceTopics))
        ∧ (∀ x, (∃ g, g ∈ out ∧ x ∈ g.processorNames) ↔ (∃ g, g ∈ pgs ∧ x ∈ g.processorNames))
        ∧ (∀ x, (∃ g, g ∈ out ∧ x ∈ g.storeNames) ↔ (∃ g, g ∈ pgs ∧ x ∈ g.storeNames)) := by
  obtain ⟨out, hout⟩ := mergePartitionGroups_total pgs
  obtain ⟨hsteps, _, _⟩ := mergeLoop_some _ _ _ hout
  exact ⟨out, hout,
    steps_members (fun g => g.sourceTopics) mem_mergeInto_sourceTopics hsteps,
    steps_members (fun g => g.processorNames) mem_mergeInto_processorNames hsteps,
    steps_members (fun g => g.storeNames) mem_mergeInto_storeNames hsteps⟩

/-- C3: on the groups G1, G2, G3 of the example `mergePartitionGroups` returns two
groups in the stated order, but the processor list of the first is
`[p1, p2, p1]`, not `[p1, p2]`: `slices.Compact` only drops adjacent repeats, so
the `p1` appended from G1 stays; read as sets the members are the stated ones. -/
theorem mergePartitionGroups_example_keeps_duplicate :
    mergePartitionGroups
        [⟨["t1"], ["p1"], []⟩, ⟨[], ["p1", "p2"], ["s1"]⟩, ⟨["t2"], ["p3"], []⟩]
      = some [⟨["t1"], ["p1", "p2", "p1"], ["s1"]⟩, ⟨["t2"], ["p3"], []⟩]
    ∧ mergePartitionGroups
        [⟨["t1"], ["p1"], []⟩, ⟨[], ["p1", "p2"], ["s1"]⟩, ⟨["t2"], ["p3"], []⟩]
      ≠ some [⟨["t1"], ["p1", "p2"], ["s1"]⟩, ⟨["t2"], ["p3"], []⟩]
    ∧ sameMembers ⟨["t1"], ["p1", "p2", "p1"], ["s1"]⟩ ⟨["t1"], ["p1", "p2"], ["s1"]⟩ := by
  refine ⟨by decide, by decide, ?_⟩
  refine ⟨fun x => Iff.rfl, fun x => ?_, fun x => Iff.rfl⟩
  simp only [List.mem_cons, List.mem_singleton, List.not_mem_nil, or_false]
  tauto

/-- C4: `mergePartitionGroups` terminates: a call of `mergeIteration` either
reports done or returns a list with exactly one group fewer, and the loop returns
within `len(pgs) - 1` merges, after which `mergeIteration` reports done; any
larger budget gives the same result. -/
theorem mergePartitionGroups_terminates (pgs : List PartitionGroup) :
    ((mergeIteration pgs).2 = true ∨ (mergeIteration pgs).1.length + 1 = pgs.length)
      ∧ ∃ out, mergeLoop (pgs.length - 1) pgs = some out
          ∧ (mergeIteration out).2 = true
          ∧ (∀ k, mergeLoop (pgs.length - 1 + k) pgs = some out)
          ∧ mergePartitionGroups pgs = some out := by
  constructor
  · rcases mergeIteration_cases pgs with ⟨h1, _⟩ | ⟨o, h1, h2⟩
    · left; rw [h1]
    · right; rw [h1]; exact h2.length
  · obtain ⟨out, hout⟩ := mergeLoop_total (pgs.length - 1) pgs (by omega)
    obtain ⟨_, hdone, _⟩ := mergeLoop_some _ _ _ hout
    refine ⟨out, hout, by rw [hdone], fun k => mergeLoop_mono _ k _ _ hout, ?_⟩
    have := mergeLoop_mono _ (pgs.length - (pgs.length - 1)) _ _ hout
    rwa [show pgs.length - 1 + (pgs.length - (pgs.length - 1)) = pgs.length by omega] at this

/-- C5: `mergePartitionGroups` is idempotent: on its own output the first
`mergeIteration` returns the list unchanged with done = true, so merging the
output again returns the same list. -/
theorem mergePartitionGroups_idempotent (pgs : List PartitionGroup) :
    ∃ out, mergePartitionGroups pgs = some out
      ∧ mergeIteration out = (out, true)
      ∧ mergePartitionGroups out = some out := by
  obtain ⟨out, hout⟩ := mergePartitionGroups_total pgs
  obtain ⟨_, hdone, _⟩ := mergeLoop_some _ _ _ hout
  refine ⟨out, hout, hdone, ?_⟩
  unfold mergePartitionGroups mergeLoop
  rw [hdone]

/-- On group values the final partition does not depend on the order of the input
groups: for an input list and any permutation of it, the two outputs, with each
group read as three sets of members, are the same up to the order of the groups;
in particular every group of either output has the same members as some group of
the other. -/
theorem mergePartitionGroups_order_independent (pgs pgs' : List PartitionGroup)
    (hperm : pgs.Perm pgs') :
    ∃ out out', mergePartitionGroups pgs = some out ∧ mergePartitionGroups pgs' = some out'
      ∧ (out.map memberSets).Perm (out'.map memberSets)
      ∧ (∀ g, g ∈ out → ∃ g', g' ∈ out' ∧ sameMembers g g')
      ∧ (∀ g', g' ∈ out' → ∃ g, g ∈ out ∧ sameMembers g g') := by
  obtain ⟨out, hout⟩ := mergePartitionGroups_total pgs
  obtain ⟨out', hout'⟩ := mergePartitionGroups_total pgs'
  obtain ⟨hsteps, _, hdis⟩ := mergeLoop_some _ _ _ hout
  obtain ⟨hsteps', _, hdis'⟩ := mergeLoop_some _ _ _ hout'
  have hinv := MergeInv.steps hsteps
  have hinv' := MergeInv.steps hsteps'
  have h1 : ∀ g, g ∈ out → ∃ g', g' ∈ out' ∧ sameMembers g g' :=
    merged_groups_found (fun g => hperm.mem_iff) hinv hdis hinv' hdis'
  have h2 : ∀ g', g' ∈ out' → ∃ g, g ∈ out ∧ sameMembers g' g :=
    merged_groups_found (fun g => hperm.symm.mem_iff) hinv' hdis' hinv hdis
  refine ⟨out, out', hout, hout', ?_, h1, ?_⟩
  · rw [List.perm_iff_count]
    intro c
    simp only [List.count_eq_countP, List.countP_map]
    suffices key : ∀ p : PartitionGroup → Bool, (∀ g, p g = true ↔ memberSets g = c) →
        out.countP p = out'.countP p from key _ (fun g => decide_eq_true_iff)
    intro p hp'
    by_cases hc : c = (∅, ∅, ∅)
    · subst hc
      have hn : ∀ g, p g = true → noMembers g :=
        fun g hg => (memberSets_eq_empty_iff g).1 ((hp' g).1 hg)
      rw [steps_countP_noMembers p hn hsteps, steps_countP_noMembers p hn hsteps']
      exact hperm.countP_eq _
    · have hle := countP_memberSets_le_one out c hc p hp' hdis
      have hle' := countP_memberSets_le_one out' c hc p hp' hdis'
      have hiff : 0 < out.countP p ↔ 0 < out'.countP p := by
        rw [List.countP_pos_iff, List.countP_pos_iff]
        constructor
        · rintro ⟨g, hg, hpg⟩
          obtain ⟨g', hg', hs⟩ := h1 g hg
          exact ⟨g', hg', (hp' g').2 (((memberSets_eq_iff g g').2 hs).symm.trans ((hp' g).1 hpg))⟩
        · rintro ⟨g', hg', hpg⟩
          obtain ⟨g, hg, hs⟩ := h2 g' hg'
          exact ⟨g, hg, (hp' g).2 (((memberSets_eq_iff g' g).2 hs).symm.trans ((hp' g').1 hpg))⟩
      omega
  · intro g' hg'
    obtain ⟨g, hg, hs⟩ := h2 g' hg'
    exact ⟨g, hg, ⟨fun x => (hs.1 x).symm, fun x => (hs.2.1 x).symm, fun x => (hs.2.2 x).symm⟩⟩

/-- The example groups, as values, supplied in two different orders. -/
theorem mergePartitionGroups_order_independent_witness :
    ([⟨["t1"], ["p1"], []⟩, ⟨[], ["p1", "p2"], ["s1"]⟩, ⟨["t2"], ["p3"], []⟩] :
        List PartitionGroup).Perm
      [⟨[], ["p1", "p2"], ["s1"]⟩, ⟨["t1"], ["p1"], []⟩, ⟨["t2"], ["p3"], []⟩]
    ∧ ∃ out out',
      mergePartitionGroups
          [⟨["t1"], ["p1"], []⟩, ⟨[], ["p1", "p2"], ["s1"]⟩, ⟨["t2"], ["p3"], []⟩] = some out
      ∧ mergePartitionGroups
          [⟨[], ["p1", "p2"], ["s1"]⟩, ⟨["t1"], ["p1"], []⟩, ⟨["t2"], ["p3"], []⟩] = some out'
      ∧ (out.map memberSets).Perm (out'.map memberSets)
      ∧ (∀ g, g ∈ out → ∃ g', g' ∈ out' ∧ sameMembers g g')
      ∧ (∀ g', g' ∈ out' → ∃ g, g ∈ out ∧ sameMembers g g') :=
  ⟨List.Perm.swap _ _ _, mergePartitionGroups_order_independent _ _ (List.Perm.swap _ _ _)⟩

/-! ## The claims about the builder -/

theorem mapSet_same {V : Type} (m : String → Option V) (key : String) (value : V) :
    mapSet m key value key = some value := by
  simp [mapSet]

theorem mapSet_other {V : Type} (m : String → Option V) (key k : String) (value : V)
    (h : k ≠ key) : mapSet m key value k = m k := by
  simp [mapSet, h]

theorem checkStores_eq_none {Fn : Type} (t : TopologyBuilder Fn) (stores : List String) :
    checkStores t stores = none ↔ ∀ s, s ∈ stores → (t.stores s).isSome = true := by
  induction stores with
  | nil => simp [checkStores]
  | cons s rest ih =>
    simp only [checkStores, List.mem_cons, forall_eq_or_imp]
    cases hs : t.stores s with
    | none => simp
    | some x => simpa using ih

theorem checkStores_cases {Fn : Type} (t : TopologyBuilder Fn) (stores : List String) :
    checkStores t stores = none ∨ checkStores t stores = some (Error.New "store not found") := by
  induction stores with
  | nil => left; rfl
  | cons s rest ih =>
    simp only [checkStores]
    cases hs : t.stores s with
    | none => right; rfl
    | some x => exact ih

/-- C7: when `name` is already a registered processor, `AddProcessor` returns
ErrNodeAlreadyExists and the builder after the call is the builder before it, so
the existing descriptor and every other registration are untouched. -/
theorem AddProcessor_duplicate_unchanged {Fn : Type} (t : TopologyBuilder Fn) (p : Fn)
    (name : String) (stores : List String) (h : (t.processors name).isSome = true) :
    AddProcessor t p name stores = (t, some Error.ErrNodeAlreadyExists) := by
  unfold AddProcessor
  cases hp : t.processors name with
  | none => rw [hp] at h; cases h
  | some x => rfl

/-- An instance of C7: a second registration of processor `a`, which has the
child `b` and the store `s1`. -/
theorem AddProcessor_duplicate_unchanged_witness :
    (sampleBuilder.processors "a").isSome = true
      ∧ AddProcessor sampleBuilder () "a" ["s2"] = (sampleBuilder, some Error.ErrNodeAlreadyExists)
      ∧ (sampleBuilder.processors "a").map (fun d => (d.ChildNodeNames, d.StoreNames))
          = some (["b"], ["s1"]) :=
  ⟨rfl, AddProcessor_duplicate_unchanged sampleBuilder () "a" ["s2"] rfl, rfl⟩

/-- C8: for a name that is not yet a registered processor, `AddProcessor` returns
the error "store not found" when some listed store is not registered, and no
error when every listed store is registered (in particular for an empty list). -/
theorem AddProcessor_store_check {Fn : Type} (t : TopologyBuilder Fn) (p : Fn)
    (name : String) (stores : List String) (hnew : t.processors name = none) :
    ((∃ s, s ∈ stores ∧ t.stores s = none) →
        (AddProcessor t p name stores).2 = some (Error.New "store not found"))
      ∧ ((∀ s, s ∈ stores → (t.stores s).isSome = true) →
        (AddProcessor t p name stores).2 = none) := by
  unfold AddProcessor
  rw [hnew]
  constructor
  · rintro ⟨s, hs, hnone⟩
    rcases checkStores_cases
      ({ t with processors := mapSet t.processors name ⟨name, p, [], stores⟩ }) stores with h | h
    · have := (checkStores_eq_none _ stores).1 h s hs
      simp [hnone] at this
    · exact h
  · intro hall
    exact (checkStores_eq_none _ stores).2 hall

/-- An instance of C8: a new processor `c` with the unregistered store `s2`, with
the registered store `s1`, and with no store. -/
theorem AddProcessor_store_check_witness :
    sampleBuilder.processors "c" = none
      ∧ (AddProcessor sampleBuilder () "c" ["s1", "s2"]).2 = some (Error.New "store not found")
      ∧ (AddProcessor sampleBuilder () "c" ["s1"]).2 = none
      ∧ (AddProcessor sampleBuilder () "c" []).2 = none :=
  ⟨rfl,
    (AddProcessor_store_check sampleBuilder () "c" ["s1", "s2"] rfl).1
      ⟨"s2", by simp, rfl⟩,
    (AddProcessor_store_check sampleBuilder () "c" ["s1"] rfl).2
      (by intro s hs; simp at hs; subst hs; rfl),
    (AddProcessor_store_check sampleBuilder () "c" [] rfl).2
      (by intro s hs; simp at hs)⟩

/-- C9: `SetParent` returns ErrNodeNotFound exactly when `parent` is not a
registered processor, whatever the source and sink maps hold; a failing call
returns the builder unchanged, and for a registered processor the call returns
no error for every child. -/
theorem SetParent_error_iff {Fn : Type} (t : TopologyBuilder Fn) (parent child : String) :
    ((SetParent t parent child).2 = some Error.ErrNodeNotFound ↔ t.processors parent = none)
      ∧ ((t.processors parent = none
            ∧ SetParent t parent child = (t, some Error.ErrNodeNotFound))
          ∨ ((t.processors parent).isSome = true ∧ (SetParent t parent child).2 = none)) := by
  unfold SetParent
  cases hp : t.processors parent with
  | none => simp
  | some x => simp

/-! ## The claims about `Forward` -/

/-- The loop calls the outputs in the order of the list, each once. -/
theorem forwardLoop_names {W K V : Type} (k : K) (v : V)
    (l : List (String × GenericProcessor W K V)) (errs : String → Option Error) (w : W) :
    (forwardLoop k v l errs w).2.2.map Invocation.name = l.map Prod.fst := by
  induction l generalizing errs w with
  | nil => rfl
  | cons hd rest ih =>
    obtain ⟨name, p⟩ := hd
    simp only [forwardLoop]
    cases hP : p.Process k v w with
    | mk e w1 =>
      cases e with
      | none => simp [ih]
      | some err => simp [ih]

/-- Every call is made with the arguments of `Forward`. -/
theorem forwardLoop_args {W K V : Type} (k : K) (v : V)
    (l : List (String × GenericProcessor W K V)) (errs : String → Option Error) (w : W) :
    ∀ inv, inv ∈ (forwardLoop k v l errs w).2.2 → inv.key = k ∧ inv.value = v := by
  induction l generalizing errs w with
  | nil => intro inv h; simp [forwardLoop] at h
  | cons hd rest ih =>
    obtain ⟨name, p⟩ := hd
    simp only [forwardLoop]
    cases hP : p.Process k v w with
    | mk e w1 =>
      cases e with
      | none =>
        intro inv h
        rcases List.mem_cons.1 h with rfl | h
        · exact ⟨rfl, rfl⟩
        · exact ih _ _ inv h
      | some err =>
        intro inv h
        rcases List.mem_cons.1 h with rfl | h
        · exact ⟨rfl, rfl⟩
        · exact ih _ _ inv h

/-- The error map after the loop: an entry is either the error returned by a
call of this loop, or an entry from before for a name no failing call had. -/
theorem forwardLoop_errors {W K V : Type} (k : K) (v : V)
    (l : List (String × GenericProcessor W K V)) (errs : String → Option Error) (w : W)
    (hnodup : (l.map Prod.fst).Nodup) (n : String) (e : Error) :
    (forwardLoop k v l errs w).1 n = some e ↔
      (∃ inv, inv ∈ (forwardLoop k v l errs w).2.2 ∧ inv.name = n ∧ inv.err = some e)
        ∨ (errs n = some e
            ∧ ∀ inv, inv ∈ (forwardLoop k v l errs w).2.2 → inv.name = n → inv.err = none) := by
  induction l generalizing errs w with
  | nil => simp [forwardLoop]
  | cons hd rest ih =>
    obtain ⟨name, p⟩ := hd
    simp only [List.map_cons, List.nodup_cons] at hnodup
    obtain ⟨hfresh, hrest⟩ := hnodup
    have hnone : ∀ errs1 w1 inv, inv ∈ (forwardLoop k v rest errs1 w1).2.2 → inv.name ≠ name := by
      intro errs1 w1 inv hinv hname
      apply hfresh
      rw [← forwardLoop_names k v rest errs1 w1, ← hname]
      exact List.mem_map_of_mem _ hinv
    simp only [forwardLoop]
    cases hP : p.Process k v w with
    | mk r w1 =>
      cases r with
      | none =>
        simp only [List.mem_cons]
        rw [ih errs w1 hrest]
        constructor
        · rintro (⟨inv, hinv, h1, h2⟩ | ⟨h1, h2⟩)
          · exact Or.inl ⟨inv, Or.inr hinv, h1, h2⟩
          · refine Or.inr ⟨h1, ?_⟩
            rintro inv (rfl | hinv) hname
            · rfl
            · exact h2 inv hinv hname
        · rintro (⟨inv, (rfl | hinv), h1, h2⟩ | ⟨h1, h2⟩)
          · cases h2
          · exact Or.inl ⟨inv, hinv, h1, h2⟩
          · exact Or.inr ⟨h1, fun inv hinv hname => h2 inv (Or.inr hinv) hname⟩
      | some err =>
        simp only [List.mem_cons]
        rw [ih (mapSet errs name err) w1 hrest]
        by_cases hn : n = name
        · subst hn
          rw [mapSet_same]
          constructor
          · rintro (⟨inv, hinv, h1, _⟩ | ⟨h1, _⟩)
            · exact absurd h1 (hnone _ _ inv hinv)
            · exact Or.inl ⟨_, Or.inl rfl, rfl, h1⟩
          · rintro (⟨inv, (rfl | hinv), h1, h2⟩ | ⟨_, h2⟩)
            · exact Or.inr ⟨h2, fun inv hinv hname => absurd hname (hnone _ _ inv hinv)⟩
            · exact absurd h1 (hnone _ _ inv hinv)
            · have := h2 _ (Or.inl rfl) rfl
              cases this
        · rw [mapSet_other _ _ _ _ hn]
          constructor
          · rintro (⟨inv, hinv, h1, h2⟩ | ⟨h1, h2⟩)
            · exact Or.inl ⟨inv, Or.inr hinv, h1, h2⟩
            · refine Or.inr ⟨h1, ?_⟩
              rintro inv (rfl | hinv) hname
              · exact absurd hname.symm hn
              · exact h2 inv hinv hname
          · rintro (⟨inv, (rfl | hinv), h1, h2⟩ | ⟨h1, h2⟩)
            · exact absurd h1.symm hn
            · exact Or.inl ⟨inv, hinv, h1, h2⟩
            · exact Or.inr ⟨h1, fun inv hinv hname => h2 inv (Or.inr hinv) hname⟩

/-- The world after the loop is the one reached by calling `Process(k, v)` of
every entry once, in order. -/
theorem forwardLoop_world {W K V : Type} (k : K) (v : V)
    (l : List (String × GenericProcessor W K V)) (errs : String → Option Error) (w : W) :
    (forwardLoop k v l errs w).2.1 = worldAfter k v l w := by
  induction l generalizing errs w with
  | nil => rfl
  | cons hd rest ih =>
    obtain ⟨name, p⟩ := hd
    simp only [forwardLoop, worldAfter, List.foldl_cons]
    cases hP : p.Process k v w with
    | mk r w1 =>
      cases r with
      | none => exact ih errs w1
      | some err => exact ih (mapSet errs name err) w1

/-- The `j`-th call of the loop is the call `Process(k, v)` of the `j`-th entry,
made in the world left by the calls of the entries before it, and its recorded
error is what that call returned. -/
theorem forwardLoop_call {W K V : Type} (k : K) (v : V)
    (l : List (String × GenericProcessor W K V)) (errs : String → Option Error) (w : W)
    (j : Nat) (name : String) (p : GenericProcessor W K V) (hj : l[j]? = some (name, p)) :
    (forwardLoop k v l errs w).2.2[j]?
      = some ⟨name, k, v, (p.Process k v (worldAfter k v (l.take j) w)).1⟩ := by
  induction l generalizing errs w j with
  | nil => simp at hj
  | cons hd rest ih =>
    obtain ⟨name0, p0⟩ := hd
    simp only [forwardLoop]
    cases j with
    | zero =>
      simp only [List.getElem?_cons_zero, Option.some.injEq, Prod.mk.injEq] at hj
      obtain ⟨rfl, rfl⟩ := hj
      cases hP : p0.Process k v w with
      | mk r w1 =>
        cases r with
        | none => simp [worldAfter, hP]
        | some err => simp [worldAfter, hP]
    | succ j =>
      simp only [List.getElem?_cons_succ] at hj
      cases hP : p0.Process k v w with
      | mk r w1 =>
        have hw : worldAfter k v (((name0, p0) :: rest).take (j + 1)) w
            = worldAfter k v (rest.take j) w1 := by
          simp [worldAfter, hP]
        rw [hw]
        cases r with
        | none => simpa using ih errs w1 j hj
        | some err => simpa using ih (mapSet errs name0 err) w1 j hj

theorem forwardLoop_length {W K V : Type} (k : K) (v : V)
    (l : List (String × GenericProcessor W K V)) (errs : String → Option Error) (w : W) :
    (forwardLoop k v l errs w).2.2.length = l.length := by
  have := congrArg List.length (forwardLoop_names k v l errs w)
  simpa using this

/-- A recorded failing call is a failing call of `Process` of an entry, and
conversely. -/
theorem forwardLoop_failed_call_iff {W K V : Type} (k : K) (v : V)
    (l : List (String × GenericProcessor W K V)) (errs : String → Option Error) (w : W)
    (n : String) (e : Error) :
    (∃ inv, inv ∈ (forwardLoop k v l errs w).2.2 ∧ inv.name = n ∧ inv.err = some e)
      ↔ ∃ (j : Nat) (p : GenericProcessor W K V), l[j]? = some (n, p)
          ∧ (p.Process k v (worldAfter k v (l.take j) w)).1 = some e := by
  constructor
  · rintro ⟨inv, hinv, hname, herr⟩
    obtain ⟨j, hj⟩ := List.mem_iff_getElem?.1 hinv
    have hlt : j < l.length := by
      obtain ⟨h, _⟩ := List.getElem?_eq_some.1 hj
      rwa [forwardLoop_length] at h
    obtain ⟨⟨name, p⟩, hjl⟩ : ∃ np, l[j]? = some np := ⟨l[j], List.getElem?_eq_getElem hlt⟩
    have := forwardLoop_call k v l errs w j name p hjl
    rw [hj] at this
    cases this
    simp only at hname herr
    subst hname
    exact ⟨j, p, hjl, herr⟩
  · rintro ⟨j, p, hjl, herr⟩
    have := forwardLoop_call k v l errs w j n p hjl
    exact ⟨_, List.mem_iff_getElem?.2 ⟨j, this⟩, rfl, herr⟩

/-- C10: from an empty error map, `Forward(k, v)` calls `Process(k, v)` on every
registered output exactly once, in whatever order the outputs are visited and
whether or not a call fails: the world afterwards is the one reached by these
calls one after the other, and the `j`-th call made is the call of the `j`-th
output in the world left by the calls before it. Afterwards the error map has an
entry for a name exactly when the call of `Process` for that name returned an
error, which is the entry. -/
theorem Forward_calls_all_and_records_failures {W K V : Type} (c : ProcessorContext W K V)
    (k : K) (v : V) (w : W) (hempty : ∀ n, c.outputErrors n = none)
    (hnodup : (c.outputs.map Prod.fst).Nodup) :
    (Forward c k v w).2.1 = worldAfter k v c.outputs w
      ∧ (Forward c k v w).2.2.length = c.outputs.length
      ∧ (∀ (j : Nat) (name : String) (p : GenericProcessor W K V),
          c.outputs[j]? = some (name, p) →
          (Forward c k v w).2.2[j]?
            = some ⟨name, k, v, (p.Process k v (worldAfter k v (c.outputs.take j) w)).1⟩)
      ∧ (∀ n e, (Forward c k v w).1.outputErrors n = some e ↔
          ∃ (j : Nat) (p : GenericProcessor W K V), c.outputs[j]? = some (n, p)
            ∧ (p.Process k v (worldAfter k v (c.outputs.take j) w)).1 = some e)
      ∧ (Forward c k v w).1.outputs = c.outputs
      ∧ (Forward c k v w).2.2.map Invocation.name = c.outputs.map Prod.fst
      ∧ (∀ n, n ∈ c.outputs.map Prod.fst →
          ((Forward c k v w).2.2.map Invocation.name).count n = 1)
      ∧ (∀ inv, inv ∈ (Forward c k v w).2.2 → inv.key = k ∧ inv.value = v)
      ∧ (∀ n e, (Forward c k v w).1.outputErrors n = some e ↔
          ∃ inv, inv ∈ (Forward c k v w).2.2 ∧ inv.name = n ∧ inv.err = some e) := by
  have hnames := forwardLoop_names k v c.outputs c.outputErrors w
  have herrs : ∀ n e, (Forward c k v w).1.outputErrors n = some e ↔
      ∃ inv, inv ∈ (Forward c k v w).2.2 ∧ inv.name = n ∧ inv.err = some e := by
    intro n e
    show (forwardLoop k v c.outputs c.outputErrors w).1 n = some e ↔ _
    rw [forwardLoop_errors k v c.outputs c.outputErrors w hnodup n e]
    constructor
    · rintro (h | ⟨h, _⟩)
      · exact h
      · rw [hempty n] at h; cases h
    · intro h
      exact Or.inl h
  refine ⟨forwardLoop_world k v c.outputs c.outputErrors w,
    forwardLoop_length k v c.outputs c.outputErrors w,
    fun j name p hj => forwardLoop_call k v c.outputs c.outputErrors w j name p hj,
    ?_, rfl, hnames, ?_, forwardLoop_args k v c.outputs c.outputErrors w, herrs⟩
  · intro n e
    rw [herrs n e]
    exact forwardLoop_failed_call_iff k v c.outputs c.outputErrors w n e
  · intro n hn
    show ((forwardLoop k v c.outputs c.outputErrors w).2.2.map Invocation.name).count n = 1
    rw [hnames]
    exact List.count_eq_one_of_mem hnodup hn

/-- An instance of C10: outputs A, B, C with only B failing give one error,
keyed B, and A and C received the record. -/
theorem Forward_calls_all_and_records_failures_witness :
    (∀ n, threeOutputs.outputErrors n = none)
      ∧ (threeOutputs.outputs.map Prod.fst).Nodup
      ∧ (Forward threeOutputs 1 2 []).2.1 = worldAfter 1 2 threeOutputs.outputs []
      ∧ (∀ n e, (Forward threeOutputs 1 2 []).1.outputErrors n = some e ↔
          ∃ (j : Nat) (p : GenericProcessor (List (String × Nat × Nat)) Nat Nat),
            threeOutputs.outputs[j]? = some (n, p)
            ∧ (p.Process 1 2 (worldAfter 1 2 (threeOutputs.outputs.take j) [])).1 = some e)
      ∧ (Forward threeOutputs 1 2 []).2.1 = [("A", 1, 2), ("C", 1, 2)]
      ∧ (Forward threeOutputs 1 2 []).1.outputErrors "A" = none
      ∧ (Forward threeOutputs 1 2 []).1.outputErrors "B" = some (Error.New "B")
      ∧ (Forward threeOutputs 1 2 []).1.outputErrors "C" = none :=
  ⟨fun _ => rfl, by decide,
    (Forward_calls_all_and_records_failures threeOutputs 1 2 [] (fun _ => rfl) (by decide)).1,
    (Forward_calls_all_and_records_failures threeOutputs 1 2 []
      (fun _ => rfl) (by decide)).2.2.2.1,
    rfl, rfl, rfl, rfl⟩

/-! ## The claims about `SinkNode.Process` -/

theorem marshal_texts_ne (a b : String) :
    "sinkNode: failed to marshal key: " ++ a ≠ "sinkNode: failed to marshal value: " ++ b := by
  intro h
  have h1 := congrArg String.data h
  simp only [String.data_append] at h1
  have h2 := congrArg (fun l => l.get? 28) h1
  simp at h2

/-- C11: when the key serializer returns an error, `Process` returns an error
that wraps it under the text `sinkNode: failed to marshal key`, calls neither the
value serializer nor `Produce`; when the key serializer succeeds and the value
serializer returns an error, `Process` returns an error that wraps it under the
text `sinkNode: failed to marshal value` and does not call `Produce`; the two
errors and their messages differ. -/
theorem SinkNode_Process_marshal_errors {W K V : Type} (s : SinkNode W K V) (k : K) (v : V)
    (w : W) :
    (∀ b err w1, s.KeySerializer k w = ((b, some err), w1) →
        s.Process k v w
          = (some (Error.Errorf "sinkNode: failed to marshal key: " err), w1,
              [SinkCall.KeySerializer k]))
      ∧ (∀ key w1 b err w2, s.KeySerializer k w = ((key, none), w1) →
          s.ValueSerializer v w1 = ((b, some err), w2) →
          s.Process k v w
            = (some (Error.Errorf "sinkNode: failed to marshal value: " err), w2,
                [SinkCall.KeySerializer k, SinkCall.ValueSerializer v]))
      ∧ (∀ err err' : Error,
          (Error.Errorf "sinkNode: failed to marshal key: " err).Unwrap = some err
            ∧ (Error.Errorf "sinkNode: failed to marshal key: " err).text
                = "sinkNode: failed to marshal key" ++ (": " ++ err.text)
            ∧ (Error.Errorf "sinkNode: failed to marshal value: " err').text
                = "sinkNode: failed to marshal value" ++ (": " ++ err'.text)
            ∧ (Error.Errorf "sinkNode: failed to marshal key: " err).text
                ≠ (Error.Errorf "sinkNode: failed to marshal value: " err').text
            ∧ Error.Errorf "sinkNode: failed to marshal key: " err
                ≠ Error.Errorf "sinkNode: failed to marshal value: " err') := by
  refine ⟨?_, ?_, ?_⟩
  · intro b err w1 hk
    simp only [SinkNode.Process, hk]
  · intro key w1 b err w2 hk hv
    simp only [SinkNode.Process, hk, hv]
  · intro err err'
    refine ⟨rfl, ?_, ?_, marshal_texts_ne _ _, ?_⟩
    · show "sinkNode: failed to marshal key: " ++ err.text = _
      rw [← String.append_assoc]; rfl
    · show "sinkNode: failed to marshal value: " ++ err'.text = _
      rw [← String.append_assoc]; rfl
    · intro h
      injection h with h1 _
      exact absurd h1 (by decide)

/-- An instance of C11: a sink whose key serializer fails, and one whose value
serializer fails; no record reaches the client in either case. -/
theorem SinkNode_Process_marshal_errors_witness :
    (sampleSink true false).Process 1 2 []
        = (some (Error.Errorf "sinkNode: failed to marshal key: " (Error.New "bad key")), [],
            [SinkCall.KeySerializer 1])
      ∧ (sampleSink false true).Process 1 2 []
        = (some (Error.Errorf "sinkNode: failed to marshal value: " (Error.New "bad value")), [],
            [SinkCall.KeySerializer 1, SinkCall.ValueSerializer 2])
      ∧ (sampleSink false false).Process 1 2 []
        = (none, [⟨[1], [2], "out"⟩],
            [SinkCall.KeySerializer 1, SinkCall.ValueSerializer 2,
              SinkCall.Produce ⟨[1], [2], "out"⟩]) :=
  ⟨(SinkNode_Process_marshal_errors (sampleSink true false) 1 2 []).1 [] _ [] rfl,
    (SinkNode_Process_marshal_errors (sampleSink false true) 1 2 []).2.1 [1] [] [] _ [] rfl rfl,
    rfl⟩

/-! ## More claims about the builder -/

/-- C12: when `parent` is a registered processor, `SetParent` returns no error
for any child, appends the child at the end of the parent's child-name list and
at the end of the adjacency entry of the parent (an absent entry counts as
empty), and leaves every other processor, every other adjacency entry and the
source, sink and store maps as they were. -/
theorem SetParent_appends_child {Fn : Type} (t : TopologyBuilder Fn) (parent child : String)
    (d : TopologyProcessor Fn) (h : t.processors parent = some d) :
    (SetParent t parent child).2 = none
      ∧ (SetParent t parent child).1.processors parent
          = some { d with ChildNodeNames := d.ChildNodeNames ++ [child] }
      ∧ (∀ n, n ≠ parent → (SetParent t parent child).1.processors n = t.processors n)
      ∧ (SetParent t parent child).1.childNodes parent
          = some ((t.childNodes parent).getD [] ++ [child])
      ∧ (∀ n, n ≠ parent → (SetParent t parent child).1.childNodes n = t.childNodes n)
      ∧ (SetParent t parent child).1.sources = t.sources
      ∧ (SetParent t parent child).1.sinks = t.sinks
      ∧ (SetParent t parent child).1.stores = t.stores := by
  unfold SetParent
  rw [h]
  cases hc : t.childNodes parent with
  | none =>
    refine ⟨?_, ?_, ?_, ?_, ?_, ?_, ?_, ?_⟩ <;> (try intro n hn) <;> simp [hc, mapSet, *]
  | some l =>
    refine ⟨?_, ?_, ?_, ?_, ?_, ?_, ?_, ?_⟩ <;> (try intro n hn) <;> simp [hc, mapSet, *]

/-- An instance of C12: processor `a` of the sample builder, which already has
the child `b`, is given itself as a child. -/
theorem SetParent_appends_child_witness :
    sampleBuilder.processors "a" = some ⟨"a", (), ["b"], ["s1"]⟩
      ∧ (SetParent sampleBuilder "a" "a").2 = none
      ∧ (SetParent sampleBuilder "a" "a").1.processors "a" = some ⟨"a", (), ["b", "a"], ["s1"]⟩
      ∧ (SetParent sampleBuilder "a" "a").1.childNodes "a" = some ["b", "a"] :=
  ⟨rfl, (SetParent_appends_child sampleBuilder "a" "a" _ rfl).1,
    (SetParent_appends_child sampleBuilder "a" "a" _ rfl).2.1,
    (SetParent_appends_child sampleBuilder "a" "a" _ rfl).2.2.2.1⟩

/-- C13: `AddSource` returns ErrNodeAlreadyExists exactly when `name` is a
registered processor, and then returns the builder unchanged; otherwise, also
when `name` is already a source or a sink, it returns no error, `name` is a
registered source afterwards, and the processor, sink, store and adjacency maps
and the other sources are as before. -/
theorem AddSource_error_iff {Fn : Type} (t : TopologyBuilder Fn) (name topic : String)
    (keyDeserializer valueDeserializer : Fn) :
    ((AddSource t name topic keyDeserializer valueDeserializer).2
          = some Error.ErrNodeAlreadyExists ↔ (t.processors name).isSome = true)
      ∧ (((t.processors name).isSome = true
            ∧ AddSource t name topic keyDeserializer valueDeserializer
                = (t, some Error.ErrNodeAlreadyExists))
          ∨ (t.processors name = none
            ∧ (AddSource t name topic keyDeserializer valueDeserializer).2 = none
            ∧ (AddSource t name topic keyDeserializer valueDeserializer).1.sources name
                = some ⟨name, (keyDeserializer, valueDeserializer), []⟩
            ∧ (∀ n, n ≠ name →
                (AddSource t name topic keyDeserializer valueDeserializer).1.sources n
                  = t.sources n)
            ∧ (AddSource t name topic keyDeserializer valueDeserializer).1.processors
                = t.processors
            ∧ (AddSource t name topic keyDeserializer valueDeserializer).1.sinks = t.sinks
            ∧ (AddSource t name topic keyDeserializer valueDeserializer).1.stores = t.stores
            ∧ (AddSource t name topic keyDeserializer valueDeserializer).1.childNodes
                = t.childNodes)) := by
  unfold AddSource
  cases hp : t.processors name with
  | none =>
    refine ⟨by simp, Or.inr ⟨rfl, rfl, mapSet_same _ _ _, fun n hn => mapSet_other _ _ _ _ hn,
      rfl, rfl, rfl, rfl⟩⟩
  | some x =>
    exact ⟨by simp, Or.inl ⟨rfl, rfl⟩⟩

/-- C14: `AddProcessor` rejects a name that is already a processor, but
`AddSource` with a name that is already a source and `AddSink` with a name that
is already a sink return no error and replace the registration; `AddSink`
returns no error in any state. -/
theorem AddSource_AddSink_accept_registered_name :
    ((AddSource (NewTopologyBuilder Unit) "in" "t1" () ()).1.sources "in").isSome = true
      ∧ (AddSource (AddSource (NewTopologyBuilder Unit) "in" "t1" () ()).1 "in" "t2" () ()).2
          = none
      ∧ ((AddSink (NewTopologyBuilder Unit) "out" "t1" () ()).1.sinks "out").isSome = true
      ∧ (AddSink (AddSink (NewTopologyBuilder Unit) "out" "t1" () ()).1 "out" "t2" () ()).2
          = none
      ∧ ((AddSink (AddSink (NewTopologyBuilder Unit) "out" "t1" () ()).1 "out" "t2" () ()).1.sinks
            "out").map (fun d => d.Builder.1) = some "t2"
      ∧ (∀ (t : TopologyBuilder Unit) (name topic : String), (AddSink t name topic () ()).2 = none)
      ∧ (AddProcessor sampleBuilder () "a" []).2 = some Error.ErrNodeAlreadyExists :=
  ⟨rfl, rfl, rfl, rfl, rfl, fun _ _ _ => rfl, rfl⟩

/-- C15: when `AddProcessor` for a new name returns "store not found", the name
is a registered processor afterwards: a later `AddProcessor` with that name
returns ErrNodeAlreadyExists whatever the store map then holds, and `SetParent`
with that name as parent returns no error. -/
theorem AddProcessor_failed_call_registers {Fn : Type} (t : TopologyBuilder Fn) (p : Fn)
    (name : String) (stores : List String) (hnew : t.processors name = none)
    (hfail : (AddProcessor t p name stores).2 = some (Error.New "store not found")) :
    AddProcessor t p name stores
        = ({ t with processors := mapSet t.processors name ⟨name, p, [], stores⟩ },
            some (Error.New "store not found"))
      ∧ (AddProcessor t p name stores).1.processors name = some ⟨name, p, [], stores⟩
      ∧ (∀ (storeMap : String → Option (TopologyStore Fn)) (p' : Fn) (stores' : List String),
          (AddProcessor { (AddProcessor t p name stores).1 with stores := storeMap }
              p' name stores').2 = some Error.ErrNodeAlreadyExists)
      ∧ (∀ child, (SetParent (AddProcessor t p name stores).1 name child).2 = none) := by
  have h0 : (AddProcessor t p name stores).1
      = { t with processors := mapSet t.processors name ⟨name, p, [], stores⟩ } := by
    unfold AddProcessor
    rw [hnew]
  have h1 : (AddProcessor t p name stores).1.processors name = some ⟨name, p, [], stores⟩ := by
    rw [h0]
    exact mapSet_same _ _ _
  refine ⟨Prod.ext h0 hfail, h1, ?_, ?_⟩
  · intro storeMap p' stores'
    unfold AddProcessor
    simp only [hnew, mapSet_same]
  · intro child
    unfold SetParent
    rw [h1]

/-- An instance of C15: processor `c` with the unregistered store `s2` on the
sample builder. -/
theorem AddProcessor_failed_call_registers_witness :
    sampleBuilder.processors "c" = none
      ∧ (AddProcessor sampleBuilder () "c" ["s2"]).2 = some (Error.New "store not found")
      ∧ (AddProcessor sampleBuilder () "c" ["s2"]).1.processors "c" = some ⟨"c", (), [], ["s2"]⟩
      ∧ (AddProcessor
            { (AddProcessor sampleBuilder () "c" ["s2"]).1 with
              stores := mapSet sampleBuilder.stores "s2" ⟨"s2", ()⟩ }
            () "c" ["s2"]).2 = some Error.ErrNodeAlreadyExists
      ∧ (SetParent (AddProcessor sampleBuilder () "c" ["s2"]).1 "c" "x").2 = none :=
  ⟨rfl, rfl,
    (AddProcessor_failed_call_registers sampleBuilder () "c" ["s2"] rfl rfl).2.1,
    (AddProcessor_failed_call_registers sampleBuilder () "c" ["s2"] rfl rfl).2.2.1 _ () ["s2"],
    (AddProcessor_failed_call_registers sampleBuilder () "c" ["s2"] rfl rfl).2.2.2 "x"⟩

/-! ## The recorded graph -/

/-- Paths in a relation extended by the one edge `p → c`. -/
theorem transGen_add_edge {α : Type} {R R' : α → α → Prop} {p c : α}
    (h : ∀ a b, R' a b → R a b ∨ (a = p ∧ b = c)) {x y : α}
    (hxy : Relation.TransGen R' x y) :
    Relation.TransGen R x y
      ∨ (Relation.ReflTransGen R x p ∧ Relation.ReflTransGen R c y) := by
  induction hxy with
  | single hab =>
    rcases h _ _ hab with h1 | ⟨rfl, rfl⟩
    · exact Or.inl (Relation.TransGen.single h1)
    · exact Or.inr ⟨Relation.ReflTransGen.refl, Relation.ReflTransGen.refl⟩
  | tail _ hyz ih =>
    rcases h _ _ hyz with h1 | ⟨rfl, rfl⟩
    · rcases ih with ih | ⟨ih1, ih2⟩
      · exact Or.inl (Relation.TransGen.tail ih h1)
      · exact Or.inr ⟨ih1, Relation.ReflTransGen.tail ih2 h1⟩
    · rcases ih with ih | ⟨ih1, _⟩
      · exact Or.inr ⟨ih.to_reflTransGen, Relation.ReflTransGen.refl⟩
      · exact Or.inr ⟨ih1, Relation.ReflTransGen.refl⟩

theorem acyclic_add_edge {α : Type} {R R' : α → α → Prop} {p c : α}
    (h : ∀ a b, R' a b → R a b ∨ (a = p ∧ b = c))
    (hR : ∀ a, ¬ Relation.TransGen R a a) (hcp : ¬ Relation.ReflTransGen R c p) :
    ∀ a, ¬ Relation.TransGen R' a a := by
  intro a ha
  rcases transGen_add_edge h ha with h1 | ⟨h1, h2⟩
  · exact hR a h1
  · exact hcp (h2.trans h1)

theorem acyclic_of_no_new_edge {α : Type} {R R' : α → α → Prop}
    (h : ∀ a b, R' a b → R a b) (hR : ∀ a, ¬ Relation.TransGen R a a) :
    ∀ a, ¬ Relation.TransGen R' a a :=
  fun a ha => hR a (Relation.TransGen.mono h ha)

theorem Edge_AddSource {Fn : Type} (t : TopologyBuilder Fn) (name topic : String) (kd vd : Fn)
    (a b : String) (h : Edge (AddSource t name topic kd vd).1 a b) : Edge t a b := by
  unfold AddSource at h
  cases hp : t.processors name with
  | none => rw [hp] at h; exact h
  | some x => rw [hp] at h; exact h

theorem Edge_AddSink {Fn : Type} (t : TopologyBuilder Fn) (name topic : String) (ks vs : Fn)
    (a b : String) (h : Edge (AddSink t name topic ks vs).1 a b) : Edge t a b := h

theorem Edge_AddProcessor {Fn : Type} (t : TopologyBuilder Fn) (p : Fn) (name : String)
    (stores : List String) (a b : String) (h : Edge (AddProcessor t p name stores).1 a b) :
    Edge t a b := by
  unfold AddProcessor at h
  cases hp : t.processors name with
  | some x => rw [hp] at h; exact h
  | none =>
    rw [hp] at h
    rcases h with h | ⟨d, hd, hb⟩
    · exact Or.inl h
    · by_cases ha : a = name
      · subst ha
        simp only [mapSet_same] at hd
        cases hd
        cases hb
      · simp only [mapSet_other _ _ _ _ ha] at hd
        exact Or.inr ⟨d, hd, hb⟩

theorem Edge_SetParent {Fn : Type} (t : TopologyBuilder Fn) (parent child : String)
    (a b : String) (h : Edge (SetParent t parent child).1 a b) :
    Edge t a b ∨ (a = parent ∧ b = child) := by
  unfold SetParent at h
  cases hp : t.processors parent with
  | none => rw [hp] at h; exact Or.inl h
  | some d0 =>
    rw [hp] at h
    by_cases ha : a = parent
    · subst ha
      rcases h with ⟨l, hl, hb⟩ | ⟨d, hd, hb⟩
      · cases hc : t.childNodes a with
        | none =>
          simp [hc, mapSet] at hl
          subst hl
          simp at hb
          exact Or.inr ⟨rfl, hb⟩
        | some l0 =>
          simp [hc, mapSet] at hl
          subst hl
          rcases List.mem_append.1 hb with hb | hb
          · exact Or.inl (Or.inl ⟨l0, hc, hb⟩)
          · exact Or.inr ⟨rfl, by simpa using hb⟩
      · cases hc : t.childNodes a with
        | none =>
          simp [hc, mapSet] at hd
          subst hd
          rcases List.mem_append.1 hb with hb | hb
          · exact Or.inl (Or.inr ⟨d0, hp, hb⟩)
          · exact Or.inr ⟨rfl, by simpa using hb⟩
        | some l0 =>
          simp [hc, mapSet] at hd
          subst hd
          rcases List.mem_append.1 hb with hb | hb
          · exact Or.inl (Or.inr ⟨d0, hp, hb⟩)
          · exact Or.inr ⟨rfl, by simpa using hb⟩
    · left
      rcases h with ⟨l, hl, hb⟩ | ⟨d, hd, hb⟩
      · cases hc : t.childNodes parent with
        | none =>
          simp [hc, mapSet, ha] at hl
          exact Or.inl ⟨l, hl, hb⟩
        | some l0 =>
          simp [hc, mapSet, ha] at hl
          exact Or.inl ⟨l, hl, hb⟩
      · cases hc : t.childNodes parent with
        | none =>
          simp [hc, mapSet, ha] at hd
          exact Or.inr ⟨d, hd, hb⟩
        | some l0 =>
          simp [hc, mapSet, ha] at hd
          exact Or.inr ⟨d, hd, hb⟩

theorem Acyclic_New (Fn : Type) : Acyclic (NewTopologyBuilder Fn) := by
  intro a ha
  have hno : ∀ x y, ¬ Edge (NewTopologyBuilder Fn) x y := by
    rintro x y (⟨l, hl, _⟩ | ⟨d, hd, _⟩)
    · cases hl
    · cases hd
  cases ha with
  | single h => exact hno _ _ h
  | tail _ h => exact hno _ _ h

theorem Acyclic_runCalls {Fn : Type} (calls : List (BuilderCall Fn)) (t : TopologyBuilder Fn)
    (ht : Acyclic t) (h : CallsAvoidCycles t calls) : Acyclic (runCalls calls t) := by
  induction calls generalizing t with
  | nil => exact ht
  | cons c rest ih =>
    obtain ⟨hc, hrest⟩ := h
    refine ih (c.run t) ?_ hrest
    cases c with
    | AddSource name topic kd vd =>
      exact acyclic_of_no_new_edge (Edge_AddSource t name topic kd vd) ht
    | AddSink name topic ks vs =>
      exact acyclic_of_no_new_edge (Edge_AddSink t name topic ks vs) ht
    | AddProcessor p name stores =>
      exact acyclic_of_no_new_edge (Edge_AddProcessor t p name stores) ht
    | SetParent parent child =>
      exact acyclic_add_edge (Edge_SetParent t parent child) ht hc

/-- C16, as the code has it: registering processor `a` and calling
`SetParent(a, a)` records the edge from `a` to itself, so the recorded graph of a
reachable builder state can contain a cycle. -/
theorem builder_records_self_edge :
    Edge (runCalls [BuilderCall.AddProcessor () "a" [], BuilderCall.SetParent "a" "a"]
        (NewTopologyBuilder Unit)) "a" "a"
      ∧ ¬ Acyclic (runCalls [BuilderCall.AddProcessor () "a" [], BuilderCall.SetParent "a" "a"]
        (NewTopologyBuilder Unit)) := by
  have h : Edge (runCalls [BuilderCall.AddProcessor () "a" [], BuilderCall.SetParent "a" "a"]
      (NewTopologyBuilder Unit)) "a" "a" := Or.inl ⟨["a"], rfl, by simp⟩
  exact ⟨h, fun hac => hac "a" (Relation.TransGen.single h)⟩

/-- C16, amended: in every builder state reached from `NewTopologyBuilder` by
calls of `AddSource`, `AddSink`, `AddProcessor` and `SetParent`, failed or not,
among which no `SetParent(parent, child)` is called while `parent` can be reached
from `child`, the recorded edges contain no cycle. -/
theorem builder_acyclic_when_calls_avoid_cycles {Fn : Type} (calls : List (BuilderCall Fn))
    (h : CallsAvoidCycles (NewTopologyBuilder Fn) calls) :
    Acyclic (runCalls calls (NewTopologyBuilder Fn)) :=
  Acyclic_runCalls calls _ (Acyclic_New Fn) h

/-- An instance of the amended C16: processors `a` and `b` and the edge from `a`
to `b`. -/
theorem builder_acyclic_when_calls_avoid_cycles_witness :
    CallsAvoidCycles (NewTopologyBuilder Unit)
        [BuilderCall.AddProcessor () "a" [], BuilderCall.AddProcessor () "b" [],
          BuilderCall.SetParent "a" "b"]
      ∧ Acyclic (runCalls
        [BuilderCall.AddProcessor () "a" [], BuilderCall.AddProcessor () "b" [],
          BuilderCall.SetParent "a" "b"] (NewTopologyBuilder Unit)) := by
  have h : CallsAvoidCycles (NewTopologyBuilder Unit)
      [BuilderCall.AddProcessor () "a" [], BuilderCall.AddProcessor () "b" [],
        BuilderCall.SetParent "a" "b"] := by
    refine ⟨trivial, trivial, ?_, trivial⟩
    intro hr
    rcases Relation.ReflTransGen.cases_head hr with heq | ⟨x, hedge, _⟩
    · exact absurd heq (by decide)
    · rcases hedge with ⟨l, hl, _⟩ | ⟨d, hd, hx⟩
      · cases hl
      · cases hd
        cases hx
  exact ⟨h, builder_acyclic_when_calls_avoid_cycles _ h⟩

/-! ## The pair found by the scan of `mergeIteration` -/

theorem innerScan_some_min (i : Nat) (pg : PartitionGroup) (l : List PartitionGroup)
    (d0 d : Nat) (h : innerScan i pg d0 l = some d) :
    ∀ k other, l[k]? = some other → d0 + k < d → d0 + k ≠ i → overlaps pg other = false := by
  induction l generalizing d0 with
  | nil => intro k other hk; simp at hk
  | cons o rest ih =>
    intro k other hk hlt hne
    simp only [innerScan] at h
    by_cases hid : i = d0
    · simp only [hid, if_true] at h
      cases k with
      | zero => exact absurd hid.symm (by simpa using hne)
      | succ k =>
        simp at hk
        exact ih _ (hid ▸ h) k other hk (by omega) (by omega)
    · simp only [hid, if_false] at h
      by_cases hov : overlaps pg o = true
      · simp only [hov, if_true] at h
        cases h
        omega
      · simp only [hov] at h
        cases k with
        | zero =>
          simp at hk; subst hk
          simpa using hov
        | succ k =>
          simp at hk
          exact ih _ h k other hk (by omega) (by omega)

theorem outerScan_some_min (pgs l : List PartitionGroup) (i0 i d : Nat)
    (h : outerScan pgs i0 l = some (i, d)) :
    ∀ k pg, l[k]? = some pg → i0 + k < i → innerScan (i0 + k) pg 0 pgs = none := by
  induction l generalizing i0 with
  | nil => intro k pg hk; simp at hk
  | cons g rest ih =>
    intro k pg hk hlt
    simp only [outerScan] at h
    cases hin : innerScan i0 g 0 pgs with
    | some d' =>
      rw [hin] at h
      cases h
      omega
    | none =>
      rw [hin] at h
      cases k with
      | zero => simp at hk; subst hk; simpa using hin
      | succ k =>
        simp at hk
        have := ih _ h k pg hk (by omega)
        rwa [show i0 + 1 + k = i0 + (k + 1) by omega] at this

/-- The pair `(i, d)` at which the scan of `mergeIteration` stops: `i` is the
smallest index of a group that shares a member with a group at another index,
`d` the smallest other index whose group shares a member with group `i`, and
`i < d`; the group at `i` is appended to the group at `d` and removed. -/
theorem mergeIteration_first_pair (pgs : List PartitionGroup) (i d : Nat)
    (h : outerScan pgs 0 pgs = some (i, d)) :
    ∃ gi gd, i < d ∧ pgs[i]? = some gi ∧ pgs[d]? = some gd ∧ sharesMember gi gd
      ∧ (∀ (i' j : Nat) (g g' : PartitionGroup), i' < i → j ≠ i' →
          pgs[i']? = some g → pgs[j]? = some g' → ¬ sharesMember g g')
      ∧ (∀ (d' : Nat) (g' : PartitionGroup), d' < d → d' ≠ i →
          pgs[d']? = some g' → ¬ sharesMember gi g')
      ∧ mergeIteration pgs = ((pgs.set d (mergeInto gd gi)).eraseIdx i, false) := by
  obtain ⟨_, gi, hgi, hin⟩ := outerScan_some pgs pgs 0 i d h
  obtain ⟨hne, _, gd, hgd, hov⟩ := innerScan_some i gi pgs 0 d hin
  simp only [Nat.sub_zero] at hgi hgd
  have hsh := (overlaps_iff gi gd).1 hov
  have hmini : ∀ (i' j : Nat) (g g' : PartitionGroup), i' < i → j ≠ i' →
      pgs[i']? = some g → pgs[j]? = some g' → ¬ sharesMember g g' := by
    intro i' j g g' hlt hj hg hg' hs
    have h1 := outerScan_some_min pgs pgs 0 i d h i' g hg (by omega)
    have h2 := innerScan_none _ g pgs 0 h1 j g' hg' (by omega)
    rw [(overlaps_iff g g').2 hs] at h2
    cases h2
  have hlt : i < d := by
    rcases Nat.lt_or_ge i d with hlt | hge
    · exact hlt
    · exact absurd (sharesMember_symm hsh)
        (hmini d i gd gi (by omega) (fun e => hne e.symm) hgd hgi)
  refine ⟨gi, gd, hlt, hgi, hgd, hsh, hmini, ?_, ?_⟩
  · intro d' g' hd' hne' hg' hs
    have h2 := innerScan_some_min i gi pgs 0 d hin d' g' hg' (by omega) (by omega)
    rw [(overlaps_iff gi g').2 hs] at h2
    cases h2
  · unfold mergeIteration
    simp only [h, hlt, if_true, hgi, hgd]

/-- The scan finds a pair whenever two groups at different positions share a
member. -/
theorem outerScan_isSome_of_shares (pgs : List PartitionGroup) (i j : Nat)
    (gi gj : PartitionGroup) (hij : i ≠ j) (hi : pgs[i]? = some gi) (hj : pgs[j]? = some gj)
    (hsh : sharesMember gi gj) : ∃ p, outerScan pgs 0 pgs = some p := by
  cases hs : outerScan pgs 0 pgs with
  | some p => exact ⟨p, rfl⟩
  | none =>
    have h1 := outerScan_none pgs pgs 0 hs i gi hi
    have h2 := innerScan_none _ gi pgs 0 h1 j gj hj (by omega)
    rw [(overlaps_iff gi gj).2 hsh] at h2
    cases h2

/-- The model of `slices.Compact` collapses every run of adjacent equal elements,
as `List.destutter` does for the relation `≠`. -/
theorem Compact_eq_destutter {E : Type} [DecidableEq E] (l : List E) :
    Compact l = l.destutter (fun a b => a ≠ b) := by
  cases l with
  | nil => rfl
  | cons a rest =>
    show a :: compactFrom a rest = List.destutter' _ a rest
    induction rest generalizing a with
    | nil => rfl
    | cons b rest ih =>
      simp only [compactFrom, List.destutter']
      by_cases hb : b = a
      · subst hb
        simp [ih]
      · have hb' : a ≠ b := fun e => hb e.symm
        simp [hb, hb', ih]

/-! ## The claims about a merging step -/

/-- C18: on the example groups, none of which lists a member twice, the output
of `mergePartitionGroups` has a group whose processor list is `[p1, p2, p1]`:
the shared processor `p1` appears twice, because `slices.Compact` only drops
adjacent repeats. -/
theorem mergePartitionGroups_output_repeats_member :
    (∀ g, g ∈ ([⟨["t1"], ["p1"], []⟩, ⟨[], ["p1", "p2"], ["s1"]⟩, ⟨["t2"], ["p3"], []⟩] :
          List PartitionGroup) →
        g.sourceTopics.Nodup ∧ g.processorNames.Nodup ∧ g.storeNames.Nodup)
      ∧ ∃ out g, mergePartitionGroups
            [⟨["t1"], ["p1"], []⟩, ⟨[], ["p1", "p2"], ["s1"]⟩, ⟨["t2"], ["p3"], []⟩] = some out
          ∧ g ∈ out ∧ g.processorNames = ["p1", "p2", "p1"] ∧ ¬ g.processorNames.Nodup := by
  refine ⟨by decide, [⟨["t1"], ["p1", "p2", "p1"], ["s1"]⟩, ⟨["t2"], ["p3"], []⟩],
    ⟨["t1"], ["p1", "p2", "p1"], ["s1"]⟩, by decide, by simp, rfl, by decide⟩

/-- On group values: whenever two groups at different positions share a member,
the scan of `mergeIteration` stops at a pair `(i, d)` with `i < d`, where `i` is
the smallest index whose group shares a member with a group at another index and
`d` is the smallest index other than `i` whose group shares a member with group
`i`; the returned list is the input with the group at `i` removed and the group
at `d` replaced by the group whose member lists are those of group `d` followed
by those of group `i`, with runs of adjacent equal elements collapsed; the other
groups are unchanged and keep their order. -/
theorem mergeIteration_first_pair_and_result (pgs : List PartitionGroup)
    (h : ∃ (i j : Nat) (gi gj : PartitionGroup),
      i ≠ j ∧ pgs[i]? = some gi ∧ pgs[j]? = some gj ∧ sharesMember gi gj) :
    ∃ (i d : Nat) (gi gd : PartitionGroup),
      outerScan pgs 0 pgs = some (i, d) ∧ i < d ∧ pgs[i]? = some gi ∧ pgs[d]? = some gd
      ∧ sharesMember gi gd
      ∧ (∀ (i' j : Nat) (g g' : PartitionGroup), i' < i → j ≠ i' →
          pgs[i']? = some g → pgs[j]? = some g' → ¬ sharesMember g g')
      ∧ (∀ (d' : Nat) (g' : PartitionGroup), d' < d → d' ≠ i →
          pgs[d']? = some g' → ¬ sharesMember gi g')
      ∧ (mergeIteration pgs).2 = false
      ∧ (mergeIteration pgs).1
          = (pgs.set d
              ⟨Compact (gd.sourceTopics ++ gi.sourceTopics),
                Compact (gd.processorNames ++ gi.processorNames),
                Compact (gd.storeNames ++ gi.storeNames)⟩).eraseIdx i
      ∧ (mergeIteration pgs).1.length + 1 = pgs.length
      ∧ (∀ k, k < i → (mergeIteration pgs).1[k]? = pgs[k]?)
      ∧ (∀ k, i ≤ k → k + 1 ≠ d → (mergeIteration pgs).1[k]? = pgs[k + 1]?)
      ∧ (mergeIteration pgs).1[d - 1]?
          = some ⟨(gd.sourceTopics ++ gi.sourceTopics).destutter (fun a b => a ≠ b),
              (gd.processorNames ++ gi.processorNames).destutter (fun a b => a ≠ b),
              (gd.storeNames ++ gi.storeNames).destutter (fun a b => a ≠ b)⟩ := by
  obtain ⟨i0, j0, gi0, gj0, hij, hi0, hj0, hsh0⟩ := h
  obtain ⟨⟨i, d⟩, hs⟩ := outerScan_isSome_of_shares pgs i0 j0 gi0 gj0 hij hi0 hj0 hsh0
  obtain ⟨gi, gd, hlt, hgi, hgd, hsh, hmini, hmind, hm⟩ := mergeIteration_first_pair pgs i d hs
  obtain ⟨hdlt, _⟩ := List.getElem?_eq_some.1 hgd
  refine ⟨i, d, gi, gd, hs, hlt, hgi, hgd, hsh, hmini, hmind, by rw [hm], by rw [hm]; rfl,
    ?_, ?_, ?_, ?_⟩
  · rw [hm]
    simp only [List.length_eraseIdx, List.length_set]
    have : i < pgs.length := by omega
    simp only [this, if_true]
    omega
  · intro k hk
    rw [hm]
    simp only
    rw [List.getElem?_eraseIdx_of_lt _ _ _ hk, List.getElem?_set_ne (by omega)]
  · intro k hk hkd
    rw [hm]
    simp only
    rw [List.getElem?_eraseIdx_of_ge _ _ _ hk, List.getElem?_set_ne (fun e => hkd e.symm)]
  · rw [hm]
    simp only
    rw [List.getElem?_eraseIdx_of_ge _ _ _ (by omega), show d - 1 + 1 = d by omega,
      List.getElem?_set_self hdlt]
    simp only [mergeInto, Compact_eq_destutter]

/-- The three group values of which the first and the last share a member; the
scan stops at the pair (0, 2). -/
theorem mergeIteration_first_pair_and_result_witness :
    (∃ (i j : Nat) (gi gj : PartitionGroup),
        i ≠ j ∧ spacedGroups[i]? = some gi ∧ spacedGroups[j]? = some gj ∧ sharesMember gi gj)
      ∧ outerScan spacedGroups 0 spacedGroups = some (0, 2)
      ∧ (mergeIteration spacedGroups).1 = [⟨["t2"], ["p2"], []⟩, ⟨["t1"], ["p1"], ["s1"]⟩]
      ∧ ∃ (i d : Nat) (gi gd : PartitionGroup),
        outerScan spacedGroups 0 spacedGroups = some (i, d) ∧ i < d
        ∧ spacedGroups[i]? = some gi ∧ spacedGroups[d]? = some gd := by
  have h : ∃ (i j : Nat) (gi gj : PartitionGroup),
      i ≠ j ∧ spacedGroups[i]? = some gi ∧ spacedGroups[j]? = some gj ∧ sharesMember gi gj :=
    ⟨0, 2, ⟨["t1"], ["p1"], []⟩, ⟨[], ["p1"], ["s1"]⟩, by decide, rfl, rfl,
      Or.inr (Or.inl ⟨"p1", by simp, by simp⟩)⟩
  obtain ⟨i, d, gi, gd, h1, h2, h3, h4, _⟩ := mergeIteration_first_pair_and_result spacedGroups h
  exact ⟨h, by decide, by decide, i, d, gi, gd, h1, h2, h3, h4⟩

/-! ## Entries of the error map across calls of `Forward` -/

theorem Memory.length_read (m : Memory) (s : Slice) : (m.read s).length = s.len := by
  simp [Memory.read]

theorem Memory.read_getElem? (m : Memory) (s : Slice) (i : Nat) :
    (m.read s)[i]? = if i < s.len then some (m.arrays s.arr (s.off + i)) else none := by
  unfold Memory.read
  by_cases h : i < s.len
  · simp [h, List.getElem?_map, List.getElem?_range]
  · simp [h, List.getElem?_map]
    omega

/-- A slice whose window holds the elements of `xs` reads as `xs`. -/
theorem Memory.read_eq_list (m : Memory) (s : Slice) (xs : List String)
    (hlen : s.len = xs.length)
    (h : ∀ i, i < s.len → m.arrays s.arr (s.off + i) = xs.getD i "") : m.read s = xs := by
  apply List.ext_getElem?
  intro i
  rw [Memory.read_getElem?]
  by_cases hi : i < s.len
  · simp only [hi, if_true, h i hi]
    rw [List.getD_eq_getElem?_getD]
    have : i < xs.length := by omega
    simp [List.getElem?_eq_getElem this]
  · simp only [hi, if_false]
    rw [eq_comm, List.getElem?_eq_none_iff]
    omega

/-- Two slices of equal length whose windows hold the same elements read the
same. -/
theorem Memory.read_congr (m m' : Memory) (s s' : Slice) (hlen : s'.len = s.len)
    (h : ∀ i, i < s.len → m'.arrays s'.arr (s'.off + i) = m.arrays s.arr (s.off + i)) :
    m'.read s' = m.read s := by
  apply List.ext_getElem?
  intro i
  rw [Memory.read_getElem?, Memory.read_getElem?, hlen]
  by_cases hi : i < s.len
  · simp only [hi, if_true, h i hi]
  · simp only [hi, if_false]

theorem Memory.read_getD (m : Memory) (s : Slice) (i : Nat) (hi : i < s.len) :
    (m.read s).getD i "" = m.arrays s.arr (s.off + i) := by
  rw [List.getD_eq_getElem?_getD, Memory.read_getElem?]
  simp [hi]

theorem compactFrom_length_le {E : Type} [DecidableEq E] (l : List E) (prev : E) :
    (compactFrom prev l).length ≤ l.length := by
  induction l generalizing prev with
  | nil => simp [compactFrom]
  | cons x rest ih =>
    simp only [compactFrom]
    split
    · have := ih x
      simp only [List.length_cons]
      omega
    · have := ih x
      simp only [List.length_cons]
      omega

theorem Compact_length_le {E : Type} [DecidableEq E] (l : List E) :
    (Compact l).length ≤ l.length := by
  cases l with
  | nil => simp [Compact]
  | cons x rest =>
    have := compactFrom_length_le rest x
    simp only [Compact, List.length_cons]
    omega

theorem GroupStruct.get_set_same (g : GroupStruct) (f : Field) (s : Slice) :
    (g.set f s).get f = s := by
  cases f <;> rfl

theorem GroupStruct.get_set_other (g : GroupStruct) (f f' : Field) (s : Slice) (h : f' ≠ f) :
    (g.set f s).get f' = g.get f' := by
  cases f <;> cases f' <;> first | rfl | exact absurd rfl h

theorem Memory.value_get (m : Memory) (p : Nat) (f : Field) :
    (m.value p).get f = m.read ((m.groups p).get f) := by
  cases f <;> rfl

theorem PartitionGroup.ext_get {g h : PartitionGroup} (H : ∀ f, g.get f = h.get f) : g = h := by
  have h1 := H Field.sourceTopics
  have h2 := H Field.processorNames
  have h3 := H Field.storeNames
  cases g; cases h
  simp only [PartitionGroup.get] at h1 h2 h3
  simp [h1, h2, h3]

theorem mergeInto_get (A B : PartitionGroup) (f : Field) :
    (mergeInto A B).get f = Compact (A.get f ++ B.get f) := by
  cases f <;> rfl

theorem Slice.disjoint_symm {s t : Slice} (h : Slice.disjoint s t) : Slice.disjoint t s := by
  unfold Slice.disjoint at h ⊢
  rcases h with h | h | h | h | h
  · exact Or.inr (Or.inl h)
  · exact Or.inl h
  · exact Or.inr (Or.inr (Or.inl (fun e => h e.symm)))
  · exact Or.inr (Or.inr (Or.inr (Or.inr h)))
  · exact Or.inr (Or.inr (Or.inr (Or.inl h)))

theorem Mem.append_fit (rt : Runtime) (m : Memory) (s : Slice) (xs : List String)
    (h : s.len + xs.length ≤ s.cap) :
    Mem.append rt m s xs
      = (m.write s.arr (s.off + s.len) xs, { s with len := s.len + xs.length }) := by
  unfold Mem.append
  rw [if_pos h]

theorem Mem.append_grow (rt : Runtime) (m : Memory) (s : Slice) (xs : List String)
    (h : ¬ s.len + xs.length ≤ s.cap) :
    Mem.append rt m s xs
      = ({ m with
            arrays := fun a i =>
              if a = m.next then (m.read s ++ xs).getD i "" else m.arrays a i
            next := m.next + 1 },
          { arr := m.next, off := 0, len := s.len + xs.length,
            cap := max (s.len + xs.length) (rt.grow s.cap (s.len + xs.length)) }) := by
  unfold Mem.append
  rw [if_neg h]

theorem Mem.Compact_keep (rt : Runtime) (m : Memory) (s : Slice)
    (h : rt.compactClears = false) :
    Mem.Compact rt m s
      = (m.write s.arr s.off (Streamz.Compact (m.read s)),
          { s with len := (Streamz.Compact (m.read s)).length }) := by
  unfold Mem.Compact
  simp only [h, Bool.false_eq_true, if_false]

theorem Mem.Compact_clear (rt : Runtime) (m : Memory) (s : Slice)
    (h : rt.compactClears = true) :
    Mem.Compact rt m s
      = ((m.write s.arr s.off (Streamz.Compact (m.read s))).write s.arr
            (s.off + (Streamz.Compact (m.read s)).length)
            (List.replicate (s.len - (Streamz.Compact (m.read s)).length) ""),
          { s with len := (Streamz.Compact (m.read s)).length }) := by
  unfold Mem.Compact
  simp only [h, if_true]

/-- What `append` does: the returned slice reads as the old elements followed by
the new ones; it is the old window or a newly allocated array; outside the old
window and the new array the memory is as before. -/
theorem Mem.append_spec (rt : Runtime) (m : Memory) (s : Slice) (xs : List String) :
    (Mem.append rt m s xs).1.read (Mem.append rt m s xs).2 = m.read s ++ xs
      ∧ (Mem.append rt m s xs).2.len ≤ (Mem.append rt m s xs).2.cap
      ∧ (Mem.append rt m s xs).1.groups = m.groups
      ∧ (((Mem.append rt m s xs).2.arr = s.arr ∧ (Mem.append rt m s xs).2.off = s.off
            ∧ (Mem.append rt m s xs).2.cap = s.cap ∧ (Mem.append rt m s xs).1.next = m.next)
          ∨ ((Mem.append rt m s xs).2.arr = m.next ∧ (Mem.append rt m s xs).2.off = 0
            ∧ (Mem.append rt m s xs).1.next = m.next + 1))
      ∧ (∀ a i, a ≠ m.next → ¬ (a = s.arr ∧ s.off ≤ i ∧ i < s.off + s.cap) →
          (Mem.append rt m s xs).1.arrays a i = m.arrays a i) := by
  by_cases hfit : s.len + xs.length ≤ s.cap
  · rw [Mem.append_fit rt m s xs hfit]
    refine ⟨?_, hfit, rfl, Or.inl ⟨rfl, rfl, rfl, rfl⟩, ?_⟩
    · apply Memory.read_eq_list
      · simp [Memory.length_read]
      · intro i hi
        simp only at hi
        simp only [Memory.write]
        by_cases hlt : i < s.len
        · have : ¬ (s.off + s.len ≤ s.off + i) := by omega
          simp only [this, false_and, and_false, if_false]
          rw [List.getD_append _ _ _ _ (by rw [Memory.length_read]; exact hlt),
            Memory.read_getD m s i hlt]
        · have h1 : s.off + s.len ≤ s.off + i ∧ s.off + i < s.off + s.len + xs.length := by
            omega
          simp only [h1, and_self, if_true, true_and]
          rw [List.getD_append_right _ _ _ _ (by rw [Memory.length_read]; omega),
            Memory.length_read]
          congr 1
          omega
    · intro a i _ hout
      simp only [Memory.write]
      have : ¬ (a = s.arr ∧ s.off + s.len ≤ i ∧ i < s.off + s.len + xs.length) := by
        rintro ⟨h1, h2, h3⟩
        exact hout ⟨h1, by omega, by omega⟩
      simp only [this, if_false]
  · rw [Mem.append_grow rt m s xs hfit]
    refine ⟨?_, le_max_left _ _, rfl, Or.inr ⟨rfl, rfl, rfl⟩, ?_⟩
    · apply Memory.read_eq_list
      · simp [Memory.length_read]
      · intro i _
        simp
    · intro a i ha _
      simp only [ha, if_false]

/-- What `slices.Compact` does in memory: the returned slice, cut from the same
window, reads as the compacted elements, and outside the elements of the old
slice the memory is as before. -/
theorem Mem.Compact_spec (rt : Runtime) (m : Memory) (s : Slice) :
    (Mem.Compact rt m s).1.read (Mem.Compact rt m s).2 = Streamz.Compact (m.read s)
      ∧ (Mem.Compact rt m s).2.arr = s.arr ∧ (Mem.Compact rt m s).2.off = s.off
      ∧ (Mem.Compact rt m s).2.cap = s.cap ∧ (Mem.Compact rt m s).2.len ≤ s.len
      ∧ (Mem.Compact rt m s).1.groups = m.groups ∧ (Mem.Compact rt m s).1.next = m.next
      ∧ (∀ a i, ¬ (a = s.arr ∧ s.off ≤ i ∧ i < s.off + s.len) →
          (Mem.Compact rt m s).1.arrays a i = m.arrays a i) := by
  have hlen : (Streamz.Compact (m.read s)).length ≤ s.len := by
    have := Compact_length_le (m.read s)
    rwa [Memory.length_read] at this
  cases hc : rt.compactClears with
  | false =>
    rw [Mem.Compact_keep rt m s hc]
    refine ⟨?_, rfl, rfl, rfl, hlen, rfl, rfl, ?_⟩
    · apply Memory.read_eq_list
      · rfl
      · intro i hi
        simp only at hi
        simp only [Memory.write]
        have : s.off ≤ s.off + i ∧ s.off + i < s.off + (Streamz.Compact (m.read s)).length := by
          omega
        simp only [this, and_self, if_true]
        congr 1
        omega
    · intro a i hout
      simp only [Memory.write]
      have : ¬ (a = s.arr ∧ s.off ≤ i ∧ i < s.off + (Streamz.Compact (m.read s)).length) := by
        rintro ⟨h1, h2, h3⟩
        exact hout ⟨h1, h2, by omega⟩
      simp only [this, if_false]
  | true =>
    rw [Mem.Compact_clear rt m s hc]
    refine ⟨?_, rfl, rfl, rfl, hlen, rfl, rfl, ?_⟩
    · apply Memory.read_eq_list
      · rfl
      · intro i hi
        simp only at hi
        simp only [Memory.write]
        have h1 : ¬ (s.off + (Streamz.Compact (m.read s)).length ≤ s.off + i) := by omega
        have h2 : s.off ≤ s.off + i
            ∧ s.off + i < s.off + (Streamz.Compact (m.read s)).length := by omega
        simp only [h1, false_and, and_false, if_false, h2, and_self, if_true]
        congr 1
        omega
    · intro a i hout
      simp only [Memory.write, List.length_replicate]
      have h1 : ¬ (a = s.arr ∧ s.off + (Streamz.Compact (m.read s)).length ≤ i
          ∧ i < s.off + (Streamz.Compact (m.read s)).length
            + (s.len - (Streamz.Compact (m.read s)).length)) := by
        rintro ⟨h1, h2, h3⟩
        exact hout ⟨h1, by omega, by omega⟩
      have h2 : ¬ (a = s.arr ∧ s.off ≤ i
          ∧ i < s.off + (Streamz.Compact (m.read s)).length) := by
        rintro ⟨h1, h2, h3⟩
        exact hout ⟨h1, h2, by omega⟩
      simp only [h1, h2, if_false]

/-- What one of the lines 86-88 does: field `f` of the group behind `pgA` reads
as the compacted concatenation; its slice is the old window or a new array; the
other fields and the other structs are untouched; allocated arrays are unchanged
outside the old window. -/
theorem Mem.mergeField_spec (rt : Runtime) (m : Memory) (pa pb : Nat) (f : Field)
    (hA : ((m.groups pa).get f).len ≤ ((m.groups pa).get f).cap) :
    (Mem.mergeField rt m pa pb f).read (((Mem.mergeField rt m pa pb f).groups pa).get f)
        = Streamz.Compact (m.read ((m.groups pa).get f) ++ m.read ((m.groups pb).get f))
      ∧ (((Mem.mergeField rt m pa pb f).groups pa).get f).len
          ≤ (((Mem.mergeField rt m pa pb f).groups pa).get f).cap
      ∧ (∀ q g, (q ≠ pa ∨ g ≠ f) →
          ((Mem.mergeField rt m pa pb f).groups q).get g = (m.groups q).get g)
      ∧ (((((Mem.mergeField rt m pa pb f).groups pa).get f).arr = ((m.groups pa).get f).arr
            ∧ (((Mem.mergeField rt m pa pb f).groups pa).get f).off = ((m.groups pa).get f).off
            ∧ (((Mem.mergeField rt m pa pb f).groups pa).get f).cap = ((m.groups pa).get f).cap
            ∧ (Mem.mergeField rt m pa pb f).next = m.next)
          ∨ ((((Mem.mergeField rt m pa pb f).groups pa).get f).arr = m.next
            ∧ (Mem.mergeField rt m pa pb f).next = m.next + 1))
      ∧ (∀ a i, a < m.next →
          ¬ (a = ((m.groups pa).get f).arr ∧ ((m.groups pa).get f).off ≤ i
              ∧ i < ((m.groups pa).get f).off + ((m.groups pa).get f).cap) →
          (Mem.mergeField rt m pa pb f).arrays a i = m.arrays a i) := by
  obtain ⟨hA1, hA2, hA3, hA4, hA5⟩ :=
    Mem.append_spec rt m ((m.groups pa).get f) (m.read ((m.groups pb).get f))
  obtain ⟨hC1, hC2, hC3, hC4, hC5, hC6, hC7, hC8⟩ :=
    Mem.Compact_spec rt (Mem.append rt m ((m.groups pa).get f) (m.read ((m.groups pb).get f))).1
      (Mem.append rt m ((m.groups pa).get f) (m.read ((m.groups pb).get f))).2
  have hg : ((Mem.mergeField rt m pa pb f).groups pa).get f
      = (Mem.Compact rt
          (Mem.append rt m ((m.groups pa).get f) (m.read ((m.groups pb).get f))).1
          (Mem.append rt m ((m.groups pa).get f) (m.read ((m.groups pb).get f))).2).2 := by
    simp only [Mem.mergeField, if_true]
    exact GroupStruct.get_set_same _ _ _
  have harr : (Mem.mergeField rt m pa pb f).arrays
      = (Mem.Compact rt
          (Mem.append rt m ((m.groups pa).get f) (m.read ((m.groups pb).get f))).1
          (Mem.append rt m ((m.groups pa).get f) (m.read ((m.groups pb).get f))).2).1.arrays :=
    rfl
  have hnext : (Mem.mergeField rt m pa pb f).next
      = (Mem.append rt m ((m.groups pa).get f) (m.read ((m.groups pb).get f))).1.next := by
    rw [← hC7]
    rfl
  refine ⟨?_, ?_, ?_, ?_, ?_⟩
  · rw [hg, ← hA1, ← hC1]
    rfl
  · rw [hg, hC4]
    exact le_trans hC5 hA2
  · intro q g hqg
    simp only [Mem.mergeField]
    rw [hC6, hA3]
    by_cases hq : q = pa
    · subst hq
      simp only [if_true]
      rcases hqg with h | h
      · exact absurd rfl h
      · exact GroupStruct.get_set_other _ _ _ _ h
    · simp only [hq, if_false]
  · rw [hg, hC2, hC3, hC4, hnext]
    rcases hA4 with ⟨h1, h2, h3, h4⟩ | ⟨h1, _, h3⟩
    · exact Or.inl ⟨h1, h2, h3, h4⟩
    · exact Or.inr ⟨h1, h3⟩
  · intro a i ha hout
    rw [harr, hC8, hA5 a i (by omega) hout]
    rintro ⟨h1, h2, h3⟩
    rcases hA4 with ⟨e1, e2, e3, _⟩ | ⟨e1, _, _⟩
    · apply hout
      rw [e1] at h1
      rw [e2] at h2 h3
      rw [e3] at hA2
      exact ⟨h1, h2, by omega⟩
    · rw [e1] at h1
      omega

/-- A slice of an allocated array that cannot reach the window of `s` reads the
same in two memories that agree on the allocated arrays outside that window. -/
theorem Memory.read_of_frame (m m' : Memory) (s t : Slice) (ht : t.len ≤ t.cap)
    (hv : t.cap = 0 ∨ t.arr < m.next) (hd : Slice.disjoint s t)
    (hframe : ∀ a i, a < m.next → ¬ (a = s.arr ∧ s.off ≤ i ∧ i < s.off + s.cap) →
      m'.arrays a i = m.arrays a i) : m'.read t = m.read t := by
  apply Memory.read_congr m m' t t rfl
  intro i hi
  have hcap : t.cap ≠ 0 := by omega
  have harr : t.arr < m.next := hv.resolve_left hcap
  apply hframe _ _ harr
  rintro ⟨h1, h2, h3⟩
  rcases hd with h | h | h | h | h
  · omega
  · exact hcap h
  · exact h h1.symm
  · omega
  · omega

/-- One of the lines 86-88 on separated groups: the groups stay separated, field
`f` of the group behind `pgA` reads as the compacted concatenation, and every
other member slice of the listed groups is the same slice and reads as
before. -/
theorem Mem.mergeField_separated (rt : Runtime) (m : Memory) (pgs : List Nat) (pa pb : Nat)
    (f : Field) (hsep : Separated m pgs) (hpa : pa ∈ pgs) :
    Separated (Mem.mergeField rt m pa pb f) pgs
      ∧ (Mem.mergeField rt m pa pb f).read (((Mem.mergeField rt m pa pb f).groups pa).get f)
          = Streamz.Compact (m.read ((m.groups pa).get f) ++ m.read ((m.groups pb).get f))
      ∧ (∀ q, q ∈ pgs → ∀ g, (q ≠ pa ∨ g ≠ f) →
          (Mem.mergeField rt m pa pb f).read (((Mem.mergeField rt m pa pb f).groups q).get g)
            = m.read ((m.groups q).get g)) := by
  obtain ⟨hnd, hvalid, hdis⟩ := hsep
  obtain ⟨h1, h2, h3, h4, h5⟩ := Mem.mergeField_spec rt m pa pb f (hvalid pa hpa f).1
  have hnext : m.next ≤ (Mem.mergeField rt m pa pb f).next := by
    rcases h4 with ⟨_, _, _, e⟩ | ⟨_, e⟩ <;> omega
  have hnew : ∀ t : Slice, (t.cap = 0 ∨ t.arr < m.next) →
      Slice.disjoint ((m.groups pa).get f) t →
      Slice.disjoint (((Mem.mergeField rt m pa pb f).groups pa).get f) t := by
    intro t hv hd
    unfold Slice.disjoint at hd ⊢
    rcases h4 with ⟨e1, e2, e3, _⟩ | ⟨e1, _⟩
    · rw [e1, e2, e3]
      exact hd
    · rcases hv with hv | hv
      · exact Or.inr (Or.inl hv)
      · exact Or.inr (Or.inr (Or.inl (by omega)))
  refine ⟨⟨hnd, ?_, ?_⟩, h1, ?_⟩
  · intro p hp g
    by_cases hpg : p ≠ pa ∨ g ≠ f
    · rw [h3 p g hpg]
      refine ⟨(hvalid p hp g).1, ?_⟩
      rcases (hvalid p hp g).2 with h | h
      · exact Or.inl h
      · exact Or.inr (by omega)
    · have hp' : p = pa := by
        by_contra h
        exact hpg (Or.inl h)
      have hg' : g = f := by
        by_contra h
        exact hpg (Or.inr h)
      subst hp' hg'
      refine ⟨h2, ?_⟩
      rcases h4 with ⟨e1, _, e3, e4⟩ | ⟨e1, e4⟩
      · rw [e1, e3, e4]
        exact (hvalid p hp g).2
      · right
        omega
  · intro p hp q hq g1 g2 hne
    by_cases hpg : p ≠ pa ∨ g1 ≠ f
    · rw [h3 p g1 hpg]
      by_cases hqg : q ≠ pa ∨ g2 ≠ f
      · rw [h3 q g2 hqg]
        exact hdis p hp q hq g1 g2 hne
      · have hq' : q = pa := by
          by_contra h
          exact hqg (Or.inl h)
        have hg' : g2 = f := by
          by_contra h
          exact hqg (Or.inr h)
        subst hq' hg'
        apply Slice.disjoint_symm
        apply hnew _ (hvalid p hp g1).2
        apply hdis q hq p hp g2 g1
        rcases hne with h | h
        · exact Or.inl (fun e => h e.symm)
        · exact Or.inr (fun e => h e.symm)
    · have hp' : p = pa := by
        by_contra h
        exact hpg (Or.inl h)
      have hg' : g1 = f := by
        by_contra h
        exact hpg (Or.inr h)
      subst hp' hg'
      have hqg : q ≠ p ∨ g2 ≠ g1 := by
        rcases hne with h | h
        · exact Or.inl (fun e => h e.symm)
        · exact Or.inr (fun e => h e.symm)
      rw [h3 q g2 hqg]
      exact hnew _ (hvalid q hq g2).2 (hdis p hp q hq g1 g2 hne)
  · intro q hq g hqg
    rw [h3 q g hqg]
    apply Memory.read_of_frame m _ ((m.groups pa).get f) _ (hvalid q hq g).1 (hvalid q hq g).2
      _ h5
    apply hdis pa hpa q hq f g
    rcases hqg with h | h
    · exact Or.inl (fun e => h e.symm)
    · exact Or.inr (fun e => h e.symm)

/-! ## The memory model refines the value model on separated groups -/

theorem Nodup_getElem?_ne {l : List Nat} (h : l.Nodup) {i j : Nat} {x y : Nat} (hij : i ≠ j)
    (hi : l[i]? = some x) (hj : l[j]? = some y) : x ≠ y := by
  intro e
  subst e
  obtain ⟨hi', hxi⟩ := List.getElem?_eq_some.1 hi
  obtain ⟨hj', hxj⟩ := List.getElem?_eq_some.1 hj
  exact hij ((h.getElem_inj_iff).1 (hxi.trans hxj.symm))

theorem Separated.of_subset {m : Memory} {pgs pgs' : List Nat} (h : Separated m pgs)
    (hnd : pgs'.Nodup) (hsub : ∀ p, p ∈ pgs' → p ∈ pgs) : Separated m pgs' :=
  ⟨hnd, fun p hp f => h.2.1 p (hsub p hp) f,
    fun p hp q hq f g hne => h.2.2 p (hsub p hp) q (hsub q hq) f g hne⟩

/-- The three lines 86-88 one after the other, tracked field by field: `D` holds
of the fields already merged. -/
theorem Mem.mergeField_tracked (rt : Runtime) (m m1 : Memory) (pgs : List Nat) (pa pb : Nat)
    (hpa : pa ∈ pgs) (hpb : pb ∈ pgs) (hab : pa ≠ pb) (D : Field → Prop) (f : Field)
    (hf : ¬ D f) (hsep : Separated m1 pgs)
    (hsame : ∀ q, q ∈ pgs → ∀ g, (q ≠ pa ∨ ¬ D g) →
      m1.read ((m1.groups q).get g) = m.read ((m.groups q).get g))
    (hdone : ∀ g, D g →
      m1.read ((m1.groups pa).get g)
        = Streamz.Compact (m.read ((m.groups pa).get g) ++ m.read ((m.groups pb).get g))) :
    Separated (Mem.mergeField rt m1 pa pb f) pgs
      ∧ (∀ q, q ∈ pgs → ∀ g, (q ≠ pa ∨ ¬ (D g ∨ g = f)) →
          (Mem.mergeField rt m1 pa pb f).read (((Mem.mergeField rt m1 pa pb f).groups q).get g)
            = m.read ((m.groups q).get g))
      ∧ (∀ g, (D g ∨ g = f) →
          (Mem.mergeField rt m1 pa pb f).read (((Mem.mergeField rt m1 pa pb f).groups pa).get g)
            = Streamz.Compact
                (m.read ((m.groups pa).get g) ++ m.read ((m.groups pb).get g))) := by
  obtain ⟨h1, h2, h3⟩ := Mem.mergeField_separated rt m1 pgs pa pb f hsep hpa
  refine ⟨h1, ?_, ?_⟩
  · intro q hq g hqg
    have hne : q ≠ pa ∨ g ≠ f := by
      rcases hqg with h | h
      · exact Or.inl h
      · exact Or.inr (fun e => h (Or.inr e))
    rw [h3 q hq g hne]
    apply hsame q hq g
    rcases hqg with h | h
    · exact Or.inl h
    · exact Or.inr (fun e => h (Or.inl e))
  · intro g hg
    by_cases hgf : g = f
    · subst hgf
      rw [h2, hsame pa hpa g (Or.inr hf), hsame pb hpb g (Or.inl (fun e => hab e.symm))]
    · rw [h3 pa hpa g (Or.inr hgf)]
      exact hdone g (hg.resolve_right hgf)

/-- The merge of lines 86-88 on separated groups: the group behind `pgA` becomes
the value-level merge, every other listed group keeps its value, and the groups
stay separated. -/
theorem Mem.merge_three_fields (rt : Runtime) (m : Memory) (pgs : List Nat) (pa pb : Nat)
    (hsep : Separated m pgs) (hpa : pa ∈ pgs) (hpb : pb ∈ pgs) (hab : pa ≠ pb) :
    Separated
        (Mem.mergeField rt
          (Mem.mergeField rt (Mem.mergeField rt m pa pb Field.sourceTopics) pa pb
            Field.processorNames) pa pb Field.storeNames) pgs
      ∧ (Mem.mergeField rt
          (Mem.mergeField rt (Mem.mergeField rt m pa pb Field.sourceTopics) pa pb
            Field.processorNames) pa pb Field.storeNames).value pa
          = mergeInto (m.value pa) (m.value pb)
      ∧ (∀ q, q ∈ pgs → q ≠ pa →
          (Mem.mergeField rt
            (Mem.mergeField rt (Mem.mergeField rt m pa pb Field.sourceTopics) pa pb
              Field.processorNames) pa pb Field.storeNames).value q = m.value q) := by
  obtain ⟨s1, a1, b1⟩ := Mem.mergeField_tracked rt m m pgs pa pb hpa hpb hab
    (fun _ => False) Field.sourceTopics (fun h => h) hsep (fun _ _ _ _ => rfl)
    (fun _ h => h.elim)
  obtain ⟨s2, a2, b2⟩ := Mem.mergeField_tracked rt m _ pgs pa pb hpa hpb hab
    (fun g => False ∨ g = Field.sourceTopics) Field.processorNames
    (by rintro (h | h) <;> cases h) s1 a1 b1
  obtain ⟨s3, a3, b3⟩ := Mem.mergeField_tracked rt m _ pgs pa pb hpa hpb hab
    (fun g => (False ∨ g = Field.sourceTopics) ∨ g = Field.processorNames) Field.storeNames
    (by rintro ((h | h) | h) <;> cases h) s2 a2 b2
  refine ⟨s3, ?_, ?_⟩
  · apply PartitionGroup.ext_get
    intro g
    rw [Memory.value_get, mergeInto_get, Memory.value_get, Memory.value_get]
    apply b3 g
    cases g
    · exact Or.inl (Or.inl (Or.inr rfl))
    · exact Or.inl (Or.inr rfl)
    · exact Or.inr rfl
  · intro q hq hne
    apply PartitionGroup.ext_get
    intro g
    rw [Memory.value_get, Memory.value_get]
    exact a3 q hq g (Or.inl hne)

/-- On separated groups a merging step in memory is the merging step on the
group values: with `(i, d)` the pair found by the scan, the pointer at `i` is
dropped, the group behind the pointer at `d` becomes the merged value, every
other listed group keeps its value, and the remaining groups stay separated. -/
theorem Mem.mergeIteration_step (rt : Runtime) (m : Memory) (pgs : List Nat)
    (hsep : Separated m pgs) (i d : Nat)
    (hs : outerScan (m.values pgs) 0 (m.values pgs) = some (i, d)) :
    ∃ pi pd, i < d ∧ pgs[i]? = some pi ∧ pgs[d]? = some pd ∧ pd ≠ pi
      ∧ (Mem.mergeIteration rt m pgs).2 = (pgs.eraseIdx i, false)
      ∧ (Mem.mergeIteration rt m pgs).1.value pd = mergeInto (m.value pd) (m.value pi)
      ∧ (∀ q, q ∈ pgs → q ≠ pd → (Mem.mergeIteration rt m pgs).1.value q = m.value q)
      ∧ Separated (Mem.mergeIteration rt m pgs).1 pgs := by
  obtain ⟨gi, gd, hlt, hgi, hgd, _, _, _, _⟩ := mergeIteration_first_pair (m.values pgs) i d hs
  simp only [Memory.values, List.getElem?_map] at hgi hgd
  obtain ⟨pi, hpi, _⟩ := Option.map_eq_some'.1 hgi
  obtain ⟨pd, hpd, _⟩ := Option.map_eq_some'.1 hgd
  have hne : pd ≠ pi := Nodup_getElem?_ne hsep.1 (by omega) hpd hpi
  have hmi : pi ∈ pgs := List.mem_iff_getElem?.2 ⟨i, hpi⟩
  have hmd : pd ∈ pgs := List.mem_iff_getElem?.2 ⟨d, hpd⟩
  obtain ⟨h1, h2, h3⟩ := Mem.merge_three_fields rt m pgs pd pi hsep hmd hmi hne
  have e : Mem.mergeIteration rt m pgs
      = (Mem.mergeField rt
          (Mem.mergeField rt (Mem.mergeField rt m pd pi Field.sourceTopics) pd pi
            Field.processorNames) pd pi Field.storeNames, pgs.eraseIdx i, false) := by
    unfold Mem.mergeIteration
    simp only [hs, hlt, if_true, hpi, hpd]
  rw [e]
  exact ⟨pi, pd, hlt, hpi, hpd, hne, rfl, h2, h3, h1⟩

theorem Mem.mergeIteration_done (rt : Runtime) (m : Memory) (pgs : List Nat)
    (hs : outerScan (m.values pgs) 0 (m.values pgs) = none) :
    Mem.mergeIteration rt m pgs = (m, pgs, true) := by
  unfold Mem.mergeIteration
  simp only [hs]

/-- On separated groups `mergeIteration` in memory returns the values that
`Streamz.mergeIteration` returns on the values, and groups that are separated
again. -/
theorem Mem.mergeIteration_refines (rt : Runtime) (m : Memory) (pgs : List Nat)
    (hsep : Separated m pgs) :
    (Mem.mergeIteration rt m pgs).1.values (Mem.mergeIteration rt m pgs).2.1
        = (Streamz.mergeIteration (m.values pgs)).1
      ∧ (Mem.mergeIteration rt m pgs).2.2 = (Streamz.mergeIteration (m.values pgs)).2
      ∧ Separated (Mem.mergeIteration rt m pgs).1 (Mem.mergeIteration rt m pgs).2.1 := by
  cases hs : outerScan (m.values pgs) 0 (m.values pgs) with
  | none =>
    rw [Mem.mergeIteration_done rt m pgs hs]
    have : Streamz.mergeIteration (m.values pgs) = (m.values pgs, true) := by
      unfold Streamz.mergeIteration
      rw [hs]
    rw [this]
    exact ⟨rfl, rfl, hsep⟩
  | some p =>
    obtain ⟨i, d⟩ := p
    obtain ⟨pi, pd, hlt, hpi, hpd, hne, h2, hvd, hvq, hsep'⟩ :=
      Mem.mergeIteration_step rt m pgs hsep i d hs
    obtain ⟨gi, gd, _, hgi, hgd, _, _, _, hm⟩ := mergeIteration_first_pair (m.values pgs) i d hs
    have egi : gi = m.value pi := by
      simp only [Memory.values, List.getElem?_map, hpi, Option.map_some'] at hgi
      exact (Option.some.inj hgi).symm
    have egd : gd = m.value pd := by
      simp only [Memory.values, List.getElem?_map, hpd, Option.map_some'] at hgd
      exact (Option.some.inj hgd).symm
    subst egi egd
    rw [hm, h2]
    refine ⟨?_, rfl, ?_⟩
    · have hmap : pgs.map (Mem.mergeIteration rt m pgs).1.value
          = (pgs.map m.value).set d (mergeInto (m.value pd) (m.value pi)) := by
        apply List.ext_getElem?
        intro k
        by_cases hk : k = d
        · subst hk
          rw [List.getElem?_map, hpd, List.getElem?_set_self (by
            obtain ⟨h, _⟩ := List.getElem?_eq_some.1 hpd
            simpa using h)]
          simp [hvd]
        · rw [List.getElem?_set_ne (fun e => hk e.symm), List.getElem?_map, List.getElem?_map]
          cases hq : pgs[k]? with
          | none => rfl
          | some q =>
            have hqne : q ≠ pd := Nodup_getElem?_ne hsep.1 hk hq hpd
            simp [hvq q (List.mem_iff_getElem?.2 ⟨k, hq⟩) hqne]
      show (pgs.eraseIdx i).map (Mem.mergeIteration rt m pgs).1.value = _
      simp only [Memory.values]
      rw [← hmap]
      apply List.ext_getElem?
      intro k
      rw [List.getElem?_map, List.getElem?_eraseIdx, List.getElem?_eraseIdx]
      split <;> rw [List.getElem?_map]
    · exact hsep'.of_subset (List.Nodup.sublist (List.eraseIdx_sublist _ _) hsep.1)
        (fun p hp => List.mem_of_mem_eraseIdx hp)

/-- On separated groups the loop in memory returns the values that the loop on
the values returns. -/
theorem Mem.mergeLoop_refines (rt : Runtime) (fuel : Nat) (m : Memory) (pgs : List Nat)
    (hsep : Separated m pgs) :
    (Mem.mergeLoop rt fuel m pgs).map (fun r => r.1.values r.2)
      = Streamz.mergeLoop fuel (m.values pgs) := by
  induction fuel generalizing m pgs with
  | zero =>
    obtain ⟨h1, h2, _⟩ := Mem.mergeIteration_refines rt m pgs hsep
    unfold Mem.mergeLoop Streamz.mergeLoop
    rcases hM : Mem.mergeIteration rt m pgs with ⟨m1, out, dn⟩
    rcases hV : Streamz.mergeIteration (m.values pgs) with ⟨vout, vdn⟩
    rw [hM, hV] at h1 h2
    simp only at h1 h2
    subst h1 h2
    cases dn <;> rfl
  | succ f ih =>
    obtain ⟨h1, h2, h3⟩ := Mem.mergeIteration_refines rt m pgs hsep
    unfold Mem.mergeLoop Streamz.mergeLoop
    rcases hM : Mem.mergeIteration rt m pgs with ⟨m1, out, dn⟩
    rcases hV : Streamz.mergeIteration (m.values pgs) with ⟨vout, vdn⟩
    rw [hM, hV] at h1 h2
    rw [hM] at h3
    simp only at h1 h2 h3
    subst h1 h2
    cases dn with
    | true => rfl
    | false => exact ih m1 out h3

/-- On separated groups the values returned by `mergePartitionGroups` in memory
are those that `Streamz.mergePartitionGroups` returns on the values. -/
theorem Mem.mergedValues_refines (rt : Runtime) (m : Memory) (pgs : List Nat)
    (hsep : Separated m pgs) :
    Mem.mergedValues rt m pgs = Streamz.mergePartitionGroups (m.values pgs) := by
  unfold Mem.mergedValues Mem.mergePartitionGroups Streamz.mergePartitionGroups
  rw [Mem.mergeLoop_refines rt pgs.length m pgs hsep]
  simp [Memory.values]

theorem Separated.perm {m : Memory} {pgs pgs' : List Nat} (h : Separated m pgs)
    (hperm : pgs.Perm pgs') : Separated m pgs' :=
  h.of_subset (hperm.nodup h.1) (fun _ hp => hperm.symm.subset hp)

/-- On separated groups `mergePartitionGroups` in memory returns, and the values
it returns are those of `Streamz.mergePartitionGroups` on the values. -/
theorem Mem.mergePartitionGroups_refines (rt : Runtime) (m : Memory) (pgs : List Nat)
    (hsep : Separated m pgs) :
    ∃ m1 out, Mem.mergePartitionGroups rt m pgs = some (m1, out)
      ∧ Streamz.mergePartitionGroups (m.values pgs) = some (m1.values out) := by
  have h := Mem.mergedValues_refines rt m pgs hsep
  unfold Mem.mergedValues at h
  cases hr : Mem.mergePartitionGroups rt m pgs with
  | none =>
    rw [hr] at h
    obtain ⟨out, hout⟩ := mergePartitionGroups_total (m.values pgs)
    rw [hout] at h
    cases h
  | some r =>
    rw [hr] at h
    exact ⟨r.1, r.2, rfl, h.symm⟩

/-! ## The claims about `mergePartitionGroups` and `mergeIteration` in memory -/

/-- C2, as the code has it: when the topics of two groups are the slices
`base[1:2]` and `base[0:1]` of one array, the first merge appends `t9` to
`base[0:1]` in place and so overwrites `t2`; the output is one group with topics
`[t1, t9]`, and the topic `t2` of the input occurs in no output group. -/
theorem shared_array_merge_loses_member :
    sharedMemory.values [0, 1, 2]
        = [⟨["t9"], ["p"], []⟩, ⟨["t2"], ["r"], []⟩, ⟨["t1"], ["p"], []⟩]
      ∧ Mem.mergedValues (goRuntime false) sharedMemory [0, 1, 2]
        = some [⟨["t1", "t9"], ["p", "r"], []⟩]
      ∧ Mem.mergedValues (goRuntime true) sharedMemory [0, 1, 2]
        = some [⟨["t1", "t9"], ["p", "r"], []⟩]
      ∧ (∃ g, g ∈ sharedMemory.values [0, 1, 2] ∧ "t2" ∈ g.sourceTopics)
      ∧ ¬ ∃ g, g ∈ ([⟨["t1", "t9"], ["p", "r"], []⟩] : List PartitionGroup)
          ∧ "t2" ∈ g.sourceTopics := by
  refine ⟨by decide, by decide, by decide, ⟨⟨["t2"], ["r"], []⟩, by decide, by decide⟩, ?_⟩
  rintro ⟨g, hg, ht⟩
  simp only [List.mem_singleton] at hg
  subst hg
  revert ht
  decide

/-- C2, amended: for every list of pairwise distinct pointers to groups whose
member slices are well formed and cannot reach a common array element,
`mergePartitionGroups` returns and loses and invents no member: the source
topics occurring in the output groups are exactly those occurring in the input
groups, and likewise for processor names and store names. -/
theorem separated_merge_preserves_members (rt : Runtime) (m : Memory) (pgs : List Nat)
    (hsep : Separated m pgs) :
    ∃ m1 out, Mem.mergePartitionGroups rt m pgs = some (m1, out)
      ∧ (∀ x, (∃ g, g ∈ m1.values out ∧ x ∈ g.sourceTopics)
          ↔ (∃ g, g ∈ m.values pgs ∧ x ∈ g.sourceTopics))
      ∧ (∀ x, (∃ g, g ∈ m1.values out ∧ x ∈ g.processorNames)
          ↔ (∃ g, g ∈ m.values pgs ∧ x ∈ g.processorNames))
      ∧ (∀ x, (∃ g, g ∈ m1.values out ∧ x ∈ g.storeNames)
          ↔ (∃ g, g ∈ m.values pgs ∧ x ∈ g.storeNames)) := by
  obtain ⟨m1, out, h1, h2⟩ := Mem.mergePartitionGroups_refines rt m pgs hsep
  obtain ⟨vout, hv, ht, hp, hs⟩ := mergePartitionGroups_preserves_members (m.values pgs)
  rw [h2] at hv
  cases hv
  exact ⟨m1, out, h1, ht, hp, hs⟩

/-- An instance of the amended C2: the three groups with every member slice in an
array of its own. -/
theorem separated_merge_preserves_members_witness :
    Separated separateMemory [0, 1, 2]
      ∧ Mem.mergedValues (goRuntime false) separateMemory [0, 1, 2]
          = some [⟨["t2"], ["r"], []⟩, ⟨["t1", "t9"], ["p"], []⟩]
      ∧ ∃ m1 out, Mem.mergePartitionGroups (goRuntime false) separateMemory [0, 1, 2]
            = some (m1, out)
          ∧ (∀ x, (∃ g, g ∈ m1.values out ∧ x ∈ g.sourceTopics)
              ↔ (∃ g, g ∈ separateMemory.values [0, 1, 2] ∧ x ∈ g.sourceTopics))
          ∧ (∀ x, (∃ g, g ∈ m1.values out ∧ x ∈ g.processorNames)
              ↔ (∃ g, g ∈ separateMemory.values [0, 1, 2] ∧ x ∈ g.processorNames))
          ∧ (∀ x, (∃ g, g ∈ m1.values out ∧ x ∈ g.storeNames)
              ↔ (∃ g, g ∈ separateMemory.values [0, 1, 2] ∧ x ∈ g.storeNames)) := by
  have hsep : Separated separateMemory [0, 1, 2] := by
    unfold Separated Slice.disjoint
    decide
  exact ⟨hsep, by decide,
    separated_merge_preserves_members (goRuntime false) separateMemory [0, 1, 2] hsep⟩

/-- C6, as the code has it: with the topics of two groups in one array, the
pointers in the order `[0, 1, 2]` give one group and the same pointers in the
order `[2, 1, 0]` give two, so the outputs do not hold the same groups: the
group with topics `[t2]` of the second output has no counterpart in the first. -/
theorem shared_array_merge_depends_on_order :
    ([0, 1, 2] : List Nat).Perm [2, 1, 0]
      ∧ Mem.mergedValues (goRuntime false) sharedMemory [0, 1, 2]
        = some [⟨["t1", "t9"], ["p", "r"], []⟩]
      ∧ Mem.mergedValues (goRuntime false) sharedMemory [2, 1, 0]
        = some [⟨["t2"], ["r"], []⟩, ⟨["t9", "t1"], ["p"], []⟩]
      ∧ Mem.mergedValues (goRuntime true) sharedMemory [0, 1, 2]
        = some [⟨["t1", "t9"], ["p", "r"], []⟩]
      ∧ Mem.mergedValues (goRuntime true) sharedMemory [2, 1, 0]
        = some [⟨["t2"], ["r"], []⟩, ⟨["t9", "t1"], ["p"], []⟩]
      ∧ ¬ (([⟨["t1", "t9"], ["p", "r"], []⟩] : List PartitionGroup).map memberSets).Perm
          (([⟨["t2"], ["r"], []⟩, ⟨["t9", "t1"], ["p"], []⟩] : List PartitionGroup).map
            memberSets)
      ∧ ¬ ∃ g, g ∈ ([⟨["t1", "t9"], ["p", "r"], []⟩] : List PartitionGroup)
          ∧ sameMembers g ⟨["t2"], ["r"], []⟩ := by
  refine ⟨by decide, by decide, by decide, by decide, by decide, ?_, ?_⟩
  · intro h
    have := h.length_eq
    simp at this
  · rintro ⟨g, hg, hs⟩
    simp only [List.mem_singleton] at hg
    subst hg
    have := (hs.1 "t1").1 (by simp)
    simp at this

/-- C6, amended: for every list of pairwise distinct pointers to groups whose
member slices are well formed and cannot reach a common array element, and every
permutation of the list, the two outputs, with each group read as three sets of
members, are the same up to the order of the groups; in particular every group
of either output has the same members as some group of the other. -/
theorem separated_merge_order_independent (rt : Runtime) (m : Memory) (pgs pgs' : List Nat)
    (hsep : Separated m pgs) (hperm : pgs.Perm pgs') :
    ∃ m1 out m2 out', Mem.mergePartitionGroups rt m pgs = some (m1, out)
      ∧ Mem.mergePartitionGroups rt m pgs' = some (m2, out')
      ∧ ((m1.values out).map memberSets).Perm ((m2.values out').map memberSets)
      ∧ (∀ g, g ∈ m1.values out → ∃ g', g' ∈ m2.values out' ∧ sameMembers g g')
      ∧ (∀ g', g' ∈ m2.values out' → ∃ g, g ∈ m1.values out ∧ sameMembers g g') := by
  obtain ⟨m1, out, h1, h2⟩ := Mem.mergePartitionGroups_refines rt m pgs hsep
  obtain ⟨m2, out', h3, h4⟩ := Mem.mergePartitionGroups_refines rt m pgs' (hsep.perm hperm)
  obtain ⟨v, v', hv, hv', hp, ha, hb⟩ :=
    mergePartitionGroups_order_independent (m.values pgs) (m.values pgs') (hperm.map m.value)
  rw [h2] at hv
  rw [h4] at hv'
  cases hv
  cases hv'
  exact ⟨m1, out, m2, out', h1, h3, hp, ha, hb⟩

/-- An instance of the amended C6: the three groups with every member slice in an
array of its own, in the orders `[0, 1, 2]` and `[2, 1, 0]`. -/
theorem separated_merge_order_independent_witness :
    Separated separateMemory [0, 1, 2] ∧ ([0, 1, 2] : List Nat).Perm [2, 1, 0]
      ∧ Mem.mergedValues (goRuntime false) separateMemory [0, 1, 2]
          = some [⟨["t2"], ["r"], []⟩, ⟨["t1", "t9"], ["p"], []⟩]
      ∧ Mem.mergedValues (goRuntime false) separateMemory [2, 1, 0]
          = some [⟨["t2"], ["r"], []⟩, ⟨["t9", "t1"], ["p"], []⟩]
      ∧ ∃ m1 out m2 out',
          Mem.mergePartitionGroups (goRuntime false) separateMemory [0, 1, 2] = some (m1, out)
          ∧ Mem.mergePartitionGroups (goRuntime false) separateMemory [2, 1, 0]
              = some (m2, out')
          ∧ ((m1.values out).map memberSets).Perm ((m2.values out').map memberSets)
          ∧ (∀ g, g ∈ m1.values out → ∃ g', g' ∈ m2.values out' ∧ sameMembers g g')
          ∧ (∀ g', g' ∈ m2.values out' → ∃ g, g ∈ m1.values out ∧ sameMembers g g') := by
  have hsep : Separated separateMemory [0, 1, 2] := by
    unfold Separated Slice.disjoint
    decide
  have hperm : ([0, 1, 2] : List Nat).Perm [2, 1, 0] := by decide
  exact ⟨hsep, hperm, by decide, by decide,
    separated_merge_order_independent (goRuntime false) separateMemory [0, 1, 2] [2, 1, 0]
      hsep hperm⟩

/-- C19, as the code has it: with the topics of two groups in one array, the
scan stops at the pair (0, 2) and the step drops the pointer at index 0, but the
group behind the pointer at index 1, which is not of the pair, has topics `[t9]`
afterwards instead of `[t2]`: the append to `base[0:1]` wrote into its slice. -/
theorem shared_array_merge_changes_other_group :
    outerScan (sharedMemory.values [0, 1, 2]) 0 (sharedMemory.values [0, 1, 2]) = some (0, 2)
      ∧ (Mem.mergeIteration (goRuntime false) sharedMemory [0, 1, 2]).2 = ([1, 2], false)
      ∧ sharedMemory.value 1 = ⟨["t2"], ["r"], []⟩
      ∧ (Mem.mergeIteration (goRuntime false) sharedMemory [0, 1, 2]).1.value 1
          = ⟨["t9"], ["r"], []⟩
      ∧ (Mem.mergeIteration (goRuntime true) sharedMemory [0, 1, 2]).1.value 1
          = ⟨["t9"], ["r"], []⟩
      ∧ (Mem.mergeIteration (goRuntime false) sharedMemory [0, 1, 2]).1.value 2
          = ⟨["t1", "t9"], ["p"], []⟩ := by
  refine ⟨by decide, by decide, by decide, by decide, by decide, by decide⟩

/-- C19, amended: for pairwise distinct pointers to groups whose member slices are
well formed and cannot reach a common array element: whenever two groups at
different positions share a member, the scan of `mergeIteration` stops at a pair
`(i, d)` with `i < d`, where `i` is the smallest index whose group shares a
member with a group at another index and `d` is the smallest index other than
`i` whose group shares a member with group `i`; the returned list is the input
without the pointer at `i`; the group behind the pointer at `d` has as member
lists those of group `d` followed by those of group `i`, with runs of adjacent
equal elements collapsed; every other group is unchanged, and the surviving
groups keep their order. -/
theorem separated_mergeIteration_first_pair_and_result (rt : Runtime) (m : Memory)
    (pgs : List Nat) (hsep : Separated m pgs)
    (h : ∃ (i j : Nat) (gi gj : PartitionGroup),
      i ≠ j ∧ (m.values pgs)[i]? = some gi ∧ (m.values pgs)[j]? = some gj
        ∧ sharesMember gi gj) :
    ∃ (i d pi pd : Nat),
      outerScan (m.values pgs) 0 (m.values pgs) = some (i, d) ∧ i < d
      ∧ pgs[i]? = some pi ∧ pgs[d]? = some pd ∧ sharesMember (m.value pi) (m.value pd)
      ∧ (∀ (i' j : Nat) (g g' : PartitionGroup), i' < i → j ≠ i' →
          (m.values pgs)[i']? = some g → (m.values pgs)[j]? = some g' → ¬ sharesMember g g')
      ∧ (∀ (d' : Nat) (g' : PartitionGroup), d' < d → d' ≠ i →
          (m.values pgs)[d']? = some g' → ¬ sharesMember (m.value pi) g')
      ∧ (Mem.mergeIteration rt m pgs).2 = (pgs.eraseIdx i, false)
      ∧ (Mem.mergeIteration rt m pgs).1.value pd
          = ⟨Compact ((m.value pd).sourceTopics ++ (m.value pi).sourceTopics),
              Compact ((m.value pd).processorNames ++ (m.value pi).processorNames),
              Compact ((m.value pd).storeNames ++ (m.value pi).storeNames)⟩
      ∧ (Mem.mergeIteration rt m pgs).1.value pd
          = ⟨((m.value pd).sourceTopics ++ (m.value pi).sourceTopics).destutter
                (fun a b => a ≠ b),
              ((m.value pd).processorNames ++ (m.value pi).processorNames).destutter
                (fun a b => a ≠ b),
              ((m.value pd).storeNames ++ (m.value pi).storeNames).destutter
                (fun a b => a ≠ b)⟩
      ∧ (∀ q, q ∈ pgs → q ≠ pd → (Mem.mergeIteration rt m pgs).1.value q = m.value q)
      ∧ (∀ k, k < i → (pgs.eraseIdx i)[k]? = pgs[k]?)
      ∧ (∀ k, i ≤ k → (pgs.eraseIdx i)[k]? = pgs[k + 1]?)
      ∧ (pgs.eraseIdx i).length + 1 = pgs.length := by
  obtain ⟨i0, j0, gi0, gj0, hij, hi0, hj0, hsh0⟩ := h
  obtain ⟨⟨i, d⟩, hs⟩ :=
    outerScan_isSome_of_shares (m.values pgs) i0 j0 gi0 gj0 hij hi0 hj0 hsh0
  obtain ⟨pi, pd, hlt, hpi, hpd, _, h2, hvd, hvq, _⟩ :=
    Mem.mergeIteration_step rt m pgs hsep i d hs
  obtain ⟨gi, gd, _, hgi, hgd, hsh, hmini, hmind, _⟩ :=
    mergeIteration_first_pair (m.values pgs) i d hs
  have egi : gi = m.value pi := by
    simp only [Memory.values, List.getElem?_map, hpi, Option.map_some'] at hgi
    exact (Option.some.inj hgi).symm
  have egd : gd = m.value pd := by
    simp only [Memory.values, List.getElem?_map, hpd, Option.map_some'] at hgd
    exact (Option.some.inj hgd).symm
  subst egi egd
  have hilt : i < pgs.length := by
    obtain ⟨h, _⟩ := List.getElem?_eq_some.1 hpi
    exact h
  refine ⟨i, d, pi, pd, hs, hlt, hpi, hpd, hsh, hmini, hmind, h2, hvd, ?_, hvq,
    fun k hk => List.getElem?_eraseIdx_of_lt _ _ _ hk,
    fun k hk => List.getElem?_eraseIdx_of_ge _ _ _ hk, ?_⟩
  · rw [hvd]
    simp only [mergeInto, Compact_eq_destutter]
  · rw [List.length_eraseIdx]
    simp only [hilt, if_true]
    omega

/-- An instance of the amended C19: the three groups with every member slice in
an array of its own; the scan stops at the pair (0, 2). -/
theorem separated_mergeIteration_first_pair_and_result_witness :
    Separated separateMemory [0, 1, 2]
      ∧ (∃ (i j : Nat) (gi gj : PartitionGroup),
          i ≠ j ∧ (separateMemory.values [0, 1, 2])[i]? = some gi
            ∧ (separateMemory.values [0, 1, 2])[j]? = some gj ∧ sharesMember gi gj)
      ∧ outerScan (separateMemory.values [0, 1, 2]) 0 (separateMemory.values [0, 1, 2])
          = some (0, 2)
      ∧ (Mem.mergeIteration (goRuntime false) separateMemory [0, 1, 2]).2 = ([1, 2], false)
      ∧ (Mem.mergeIteration (goRuntime false) separateMemory [0, 1, 2]).1.value 1
          = separateMemory.value 1
      ∧ (Mem.mergeIteration (goRuntime false) separateMemory [0, 1, 2]).1.value 2
          = ⟨["t1", "t9"], ["p"], []⟩
      ∧ ∃ (i d pi pd : Nat),
          outerScan (separateMemory.values [0, 1, 2]) 0 (separateMemory.values [0, 1, 2])
            = some (i, d) ∧ i < d
          ∧ ([0, 1, 2] : List Nat)[i]? = some pi ∧ ([0, 1, 2] : List Nat)[d]? = some pd
          ∧ (∀ q, q ∈ ([0, 1, 2] : List Nat) → q ≠ pd →
              (Mem.mergeIteration (goRuntime false) separateMemory [0, 1, 2]).1.value q
                = separateMemory.value q) := by
  have hsep : Separated separateMemory [0, 1, 2] := by
    unfold Separated Slice.disjoint
    decide
  have h : ∃ (i j : Nat) (gi gj : PartitionGroup),
      i ≠ j ∧ (separateMemory.values [0, 1, 2])[i]? = some gi
        ∧ (separateMemory.values [0, 1, 2])[j]? = some gj ∧ sharesMember gi gj :=
    ⟨0, 2, ⟨["t9"], ["p"], []⟩, ⟨["t1"], ["p"], []⟩, by decide, by decide, by decide,
      Or.inr (Or.inl ⟨"p", by simp, by simp⟩)⟩
  obtain ⟨i, d, pi, pd, h1, h2, h3, h4, _, _, _, _, _, _, h5, _⟩ :=
    separated_mergeIteration_first_pair_and_result (goRuntime false) separateMemory [0, 1, 2]
      hsep h
  exact ⟨hsep, h, by decide, by decide, by decide, by decide, i, d, pi, pd, h1, h2, h3, h4, h5⟩

end Streamz
